import Mathlib

/-!
# A verification of the `fync` reconciliation core

This file gives a shallow embedding, in Lean, of the reconciliation core of
the `fync` directory synchronizer (`src/lib.rs`) and proves properties of it.

Modelling decisions:

* `FilePath` (Rust: `FilePath(Arc<str>)`, a relative path string ordered
  lexicographically) is modelled as the path string's character sequence
  `List Char`, with the lexicographic order.
* File contents (`Vec<u8>`) are modelled as `List Nat`.
* `ContentHash` (an `iroh_blake3` digest, from a crate outside this
  repository) is modelled from the spec: a content-addressed fingerprint
  whose equality coincides with byte equality; we take the identity
  injection on byte strings.
* `BTreeMap<K, V>` is modelled as a strictly key-sorted association list;
  `HashMap<K, V>` as an association list (no ordering is relied upon).
  The sortedness invariant of a `BTreeMap` is the `SortedA` predicate.
* The filesystem under the synchronized root is modelled as a finite map
  from relative paths to disk entries; an entry is a regular readable file
  with contents, a ("unreadable") regular file whose `read` fails with an
  error other than `NotFound`, or a non-regular-file entry (directory,
  socket, ...) whose `read` also fails with an error other than `NotFound`.
  Fallible operations return `Except SyncError`.
-/

namespace Fync

/-- A byte of file content. -/
abbrev Byte := Nat

/-- File contents (`Vec<u8>`). -/
abbrev Bytes := List Byte

/-- A `blake3` content digest.  Modelled from the spec: "Equality of
ContentId implies byte equality"; we therefore model the digest type as the
byte string itself and the digest function as the identity. -/
abbrev ContentHash := Bytes

/-- Modelled from the spec: the `iroh_blake3::hash` digest function of the
content bytes, taken to be the identity injection (see `ContentHash`). -/
def blake3hash (b : Bytes) : ContentHash := b

/-- A relative path to some root (`FilePath(Arc<str>)`): the character
sequence of the path string, ordered lexicographically. -/
abbrev FilePath := List Char

/-! ## Association-list maps

`BTreeMap` (ordered, used for snapshots and diffs) and `HashMap` (used by
the content store) are modelled as association lists.  `lookupA` is `get`,
`insertA` is `BTreeMap::insert` (keeps the strict key ordering), `setA` is
`HashMap::insert`, `eraseA` is `remove`. -/

section AssocMap

variable {K V : Type} [LinearOrder K]

/-- Map lookup (`get`). -/
def lookupA : List (K × V) → K → Option V
  | [], _ => none
  | (k, v) :: rest, q => if q = k then some v else lookupA rest q

/-- Ordered-map insert (`BTreeMap::insert`): keeps keys strictly sorted,
replaces the value at an existing key. -/
def insertA : List (K × V) → K → V → List (K × V)
  | [], k, v => [(k, v)]
  | (k', v') :: rest, k, v =>
    if k < k' then (k, v) :: (k', v') :: rest
    else if k' < k then (k', v') :: insertA rest k v
    else (k, v) :: rest

/-- Unordered-map insert (`HashMap::insert`): replaces the value at an
existing key, otherwise appends. -/
def setA : List (K × V) → K → V → List (K × V)
  | [], k, v => [(k, v)]
  | (k', v') :: rest, k, v =>
    if k = k' then (k, v) :: rest else (k', v') :: setA rest k v

/-- Map removal (`remove`): removes the entry at the key, if present. -/
def eraseA : List (K × V) → K → List (K × V)
  | [], _ => []
  | (k', v') :: rest, k => if k = k' then rest else (k', v') :: eraseA rest k

/-- The keys of an association list. -/
def keysA (l : List (K × V)) : List K := l.map Prod.fst

/-- The `BTreeMap` representation invariant: entries strictly sorted by key. -/
def SortedA (l : List (K × V)) : Prop := l.Pairwise (fun a b => a.1 < b.1)

instance (l : List (K × V)) : Decidable (SortedA l) :=
  inferInstanceAs (Decidable (l.Pairwise _))

theorem lookupA_eq_none {l : List (K × V)} {q : K} :
    lookupA l q = none ↔ q ∉ keysA l := by
  induction l with
  | nil => simp [lookupA, keysA]
  | cons kv rest ih =>
    obtain ⟨k, v⟩ := kv
    by_cases h : q = k
    · simp [lookupA, keysA, h]
    · simp [lookupA, keysA, h] at ih ⊢
      simp_all [keysA]

theorem mem_of_lookupA {l : List (K × V)} {q : K} {v : V}
    (h : lookupA l q = some v) : (q, v) ∈ l := by
  induction l with
  | nil => simp [lookupA] at h
  | cons kv rest ih =>
    obtain ⟨k, w⟩ := kv
    by_cases hq : q = k
    · subst hq
      simp [lookupA] at h
      simp [h]
    · simp [lookupA, hq] at h
      simp [ih h]

theorem mem_keysA_of_lookupA {l : List (K × V)} {q : K} {v : V}
    (h : lookupA l q = some v) : q ∈ keysA l := by
  have := mem_of_lookupA h
  simp [keysA]
  exact ⟨v, this⟩

theorem lookupA_of_mem {l : List (K × V)} {q : K} {v : V}
    (hnd : (keysA l).Nodup) (h : (q, v) ∈ l) : lookupA l q = some v := by
  induction l with
  | nil => simp at h
  | cons kv rest ih =>
    obtain ⟨k, w⟩ := kv
    simp only [keysA, List.map_cons, List.nodup_cons] at hnd
    rcases List.mem_cons.mp h with h' | h'
    · obtain ⟨hq, hv⟩ := Prod.mk.injEq .. ▸ h'
      subst hq; subst hv
      simp [lookupA]
    · have hqk : q ≠ k := by
        rintro rfl
        exact hnd.1 (by simpa [keysA] using mem_keysA_of_lookupA (ih hnd.2 h'))
      simp [lookupA, hqk, ih hnd.2 h']

theorem sortedA_nil : SortedA ([] : List (K × V)) := List.Pairwise.nil

theorem sortedA_tail {kv : K × V} {l : List (K × V)} (h : SortedA (kv :: l)) :
    SortedA l := (List.pairwise_cons.mp h).2

theorem sortedA_head_lt {kv : K × V} {l : List (K × V)} (h : SortedA (kv :: l)) :
    ∀ x ∈ l, kv.1 < x.1 := (List.pairwise_cons.mp h).1

theorem sortedA_keys_nodup {l : List (K × V)} (h : SortedA l) :
    (keysA l).Nodup := by
  induction l with
  | nil => simp [keysA]
  | cons kv rest ih =>
    simp only [keysA, List.map_cons, List.nodup_cons]
    refine ⟨?_, ih (sortedA_tail h)⟩
    intro hmem
    obtain ⟨x, hx, hfst⟩ := List.mem_map.mp hmem
    exact absurd (hfst ▸ sortedA_head_lt h x hx) (lt_irrefl _)

theorem lookupA_insertA_self (l : List (K × V)) (k : K) (v : V) :
    lookupA (insertA l k v) k = some v := by
  induction l with
  | nil => simp [insertA, lookupA]
  | cons kv rest ih =>
    obtain ⟨k', v'⟩ := kv
    by_cases h1 : k < k'
    · simp [insertA, h1, lookupA]
    · by_cases h2 : k' < k
      · have : k ≠ k' := ne_of_gt h2
        simp [insertA, h1, h2, lookupA, this, ih]
      · simp [insertA, h1, h2, lookupA]

theorem lookupA_insertA_ne (l : List (K × V)) {k q : K} (v : V) (h : q ≠ k) :
    lookupA (insertA l k v) q = lookupA l q := by
  induction l with
  | nil => simp [insertA, lookupA, h]
  | cons kv rest ih =>
    obtain ⟨k', v'⟩ := kv
    by_cases h1 : k < k'
    · simp [insertA, h1, lookupA, h]
    · by_cases h2 : k' < k
      · by_cases hq : q = k'
        · simp [insertA, h1, h2, lookupA, hq]
        · simp [insertA, h1, h2, lookupA, hq, ih]
      · have hkk' : k = k' := le_antisymm (not_lt.mp h2) (not_lt.mp h1)
        subst hkk'
        simp [insertA, lt_irrefl, lookupA, h]

theorem keysA_insertA_subset {l : List (K × V)} {k q : K} {v : V}
    (h : q ∈ keysA (insertA l k v)) : q = k ∨ q ∈ keysA l := by
  induction l with
  | nil => simp [insertA, keysA] at h; simp [h]
  | cons kv rest ih =>
    obtain ⟨k', v'⟩ := kv
    by_cases h1 : k < k'
    · simp [insertA, h1, keysA] at h ⊢
      tauto
    · by_cases h2 : k' < k
      · simp only [insertA, if_neg h1, if_pos h2, keysA, List.map_cons, List.mem_cons] at h ⊢
        rcases h with h | h
        · tauto
        · rcases ih (by simpa [keysA] using h) with h' | h'
          · tauto
          · simp only [keysA] at h'
            tauto
      · have hkk' : k = k' := le_antisymm (not_lt.mp h2) (not_lt.mp h1)
        subst hkk'
        simp only [insertA, if_neg (lt_irrefl k), keysA, List.map_cons, List.mem_cons] at h ⊢
        tauto

theorem sortedA_insertA {l : List (K × V)} (hs : SortedA l) (k : K) (v : V) :
    SortedA (insertA l k v) := by
  induction l with
  | nil => simp [insertA, SortedA]
  | cons kv rest ih =>
    obtain ⟨k', v'⟩ := kv
    by_cases h1 : k < k'
    · simp only [insertA, if_pos h1]
      refine List.pairwise_cons.mpr ⟨?_, hs⟩
      intro x hx
      rcases List.mem_cons.mp hx with h | h
      · simp [h, h1]
      · exact lt_trans h1 (sortedA_head_lt hs x h)
    · by_cases h2 : k' < k
      · simp only [insertA, if_neg h1, if_pos h2]
        refine List.pairwise_cons.mpr ⟨?_, ih (sortedA_tail hs)⟩
        intro x hx
        rcases keysA_insertA_subset (l := rest) (by simpa [keysA] using ⟨x.2, by simpa using hx⟩) with h | h
        · simpa [h] using h2
        · obtain ⟨y, hy, hfst⟩ := List.mem_map.mp h
          exact hfst ▸ sortedA_head_lt hs y hy
      · have hkk' : k = k' := le_antisymm (not_lt.mp h2) (not_lt.mp h1)
        subst hkk'
        simp only [insertA, lt_irrefl, if_neg (lt_irrefl k)]
        refine List.pairwise_cons.mpr ⟨?_, sortedA_tail hs⟩
        exact fun x hx => sortedA_head_lt hs x hx

theorem eraseA_sublist (l : List (K × V)) (k : K) : (eraseA l k).Sublist l := by
  induction l with
  | nil => simp [eraseA]
  | cons kv rest ih =>
    obtain ⟨k', v'⟩ := kv
    by_cases h : k = k'
    · simp [eraseA, h]
    · simpa [eraseA, h] using ih.cons₂ (k', v')

theorem sortedA_eraseA {l : List (K × V)} (hs : SortedA l) (k : K) :
    SortedA (eraseA l k) := hs.sublist (eraseA_sublist l k)

theorem lookupA_eraseA_ne (l : List (K × V)) {k q : K} (h : q ≠ k) :
    lookupA (eraseA l k) q = lookupA l q := by
  induction l with
  | nil => simp [eraseA]
  | cons kv rest ih =>
    obtain ⟨k', v'⟩ := kv
    by_cases hk : k = k'
    · subst hk
      simp [eraseA, lookupA, h]
    · by_cases hq : q = k'
      · simp [eraseA, hk, lookupA, hq]
      · simp [eraseA, hk, lookupA, hq, ih]

theorem lookupA_eraseA_self {l : List (K × V)} (hnd : (keysA l).Nodup) (k : K) :
    lookupA (eraseA l k) k = none := by
  induction l with
  | nil => simp [eraseA, lookupA]
  | cons kv rest ih =>
    obtain ⟨k', v'⟩ := kv
    simp only [keysA, List.map_cons, List.nodup_cons] at hnd
    by_cases hk : k = k'
    · subst hk
      simp only [eraseA, if_pos rfl]
      exact lookupA_eq_none.mpr hnd.1
    · simp [eraseA, hk, lookupA, ih hnd.2]

theorem sortedA_lookup_ext {l₁ l₂ : List (K × V)} (h₁ : SortedA l₁) (h₂ : SortedA l₂)
    (h : ∀ q, lookupA l₁ q = lookupA l₂ q) : l₁ = l₂ := by
  induction l₁ generalizing l₂ with
  | nil =>
    cases l₂ with
    | nil => rfl
    | cons kv rest =>
      obtain ⟨k, v⟩ := kv
      have := h k
      simp [lookupA] at this
  | cons kv rest ih =>
    obtain ⟨k, v⟩ := kv
    cases l₂ with
    | nil =>
      have := h k
      simp [lookupA] at this
    | cons kv₂ rest₂ =>
      obtain ⟨k₂, v₂⟩ := kv₂
      have hkeys : k = k₂ := by
        by_contra hne
        rcases lt_or_gt_of_ne hne with hlt | hgt
        · have hk1 : lookupA ((k, v) :: rest) k = some v := by simp [lookupA]
          have hk2 : lookupA ((k₂, v₂) :: rest₂) k = none := by
            apply lookupA_eq_none.mpr
            simp only [keysA, List.map_cons, List.mem_cons]
            rintro (h' | h')
            · exact hne h'
            · obtain ⟨y, hy, hfst⟩ := List.mem_map.mp h'
              exact absurd (hfst ▸ sortedA_head_lt h₂ y hy) (not_lt.mpr (le_of_lt hlt))
          rw [h k, hk2] at hk1
          exact Option.noConfusion hk1
        · have hk1 : lookupA ((k₂, v₂) :: rest₂) k₂ = some v₂ := by simp [lookupA]
          have hk2 : lookupA ((k, v) :: rest) k₂ = none := by
            apply lookupA_eq_none.mpr
            simp only [keysA, List.map_cons, List.mem_cons]
            rintro (h' | h')
            · exact hne h'.symm
            · obtain ⟨y, hy, hfst⟩ := List.mem_map.mp h'
              exact absurd (hfst ▸ sortedA_head_lt h₁ y hy) (not_lt.mpr (le_of_lt hgt))
          rw [← h k₂, hk2] at hk1
          exact Option.noConfusion hk1
      subst hkeys
      have hv : v = v₂ := by
        have := h k
        simpa [lookupA] using this
      subst hv
      congr 1
      apply ih (sortedA_tail h₁) (sortedA_tail h₂)
      intro q
      by_cases hq : q = k
      · subst hq
        have e₁ : lookupA rest q = none :=
          lookupA_eq_none.mpr (by
            intro hmem
            obtain ⟨y, hy, hfst⟩ := List.mem_map.mp hmem
            exact absurd (hfst ▸ sortedA_head_lt h₁ y hy) (lt_irrefl _))
        have e₂ : lookupA rest₂ q = none :=
          lookupA_eq_none.mpr (by
            intro hmem
            obtain ⟨y, hy, hfst⟩ := List.mem_map.mp hmem
            exact absurd (hfst ▸ sortedA_head_lt h₂ y hy) (lt_irrefl _))
        rw [e₁, e₂]
      · have := h q
        simpa [lookupA, hq] using this

theorem lookupA_setA (l : List (K × V)) (k q : K) (v : V) :
    lookupA (setA l k v) q = if q = k then some v else lookupA l q := by
  induction l with
  | nil => simp [setA, lookupA]
  | cons kv rest ih =>
    obtain ⟨k', v'⟩ := kv
    by_cases hk : k = k'
    · subst hk
      by_cases hq : q = k <;> simp [setA, lookupA, hq]
    · by_cases hq : q = k'
      · subst hq
        have : q ≠ k := fun h => hk h.symm
        simp [setA, hk, lookupA, this]
      · by_cases hqk : q = k
        · subst hqk
          simp [setA, hk, lookupA, hq, ih]
        · simp [setA, hk, lookupA, hq, hqk, ih]

end AssocMap

/-! ## Data model (`src/lib.rs`) -/

/-- Errors of the fallible operations (`anyhow::Result` in the source).
`ioError` is an underlying filesystem failure other than `NotFound`;
`missingContent` is `ContentStore::get` on an absent hash (an `anyhow`
error, propagated with `?`); `panicMissing` marks the `.unwrap()` calls on
`ContentStore::get` results, which panic instead of returning an error. -/
inductive SyncError
  | ioError
  | missingContent
  | panicMissing
deriving DecidableEq, Repr

/-- `FileMetadata { content_hash: ContentHash }`. -/
structure FileMetadata where
  content_hash : ContentHash
deriving DecidableEq, Repr

/-- `FsState { files: BTreeMap<FilePath, FileMetadata> }`: a snapshot. -/
structure FsState where
  files : List (FilePath × FileMetadata)
deriving DecidableEq, Repr

/-- `FileChange`: the per-path change variants. -/
inductive FileChange
  | Removed (old_meta : FileMetadata)
  | Created (meta : FileMetadata)
  | Modified (old_meta : FileMetadata) (new_meta : FileMetadata)
deriving DecidableEq, Repr

/-- `FsStateDiff { files: BTreeMap<FilePath, FileChange> }`. -/
structure FsStateDiff where
  files : List (FilePath × FileChange)
deriving DecidableEq, Repr

/-- `FsStateDiff::is_empty`. -/
def FsStateDiff.is_empty (d : FsStateDiff) : Bool := d.files.isEmpty

/-- `ContentStore { contents: HashMap<ContentHash, Vec<u8>>, new_contents: Vec<ContentHash> }`. -/
structure ContentStore where
  contents : List (ContentHash × Bytes)
  new_contents : List ContentHash
deriving DecidableEq, Repr

/-- The empty content store (`ContentStore::default()`). -/
def ContentStore.empty : ContentStore := ⟨[], []⟩

/-- `ContentStore::insert`: `HashMap::insert` the bytes (replacing any
previous value), and append the hash to the journal iff it was absent. -/
def ContentStore.insert (cs : ContentStore) (h : ContentHash) (c : Bytes) : ContentStore :=
  { contents := setA cs.contents h c
    new_contents :=
      if (lookupA cs.contents h).isSome then cs.new_contents
      else cs.new_contents ++ [h] }

/-- `ContentStore::add`: hash the content, insert, return the hash. -/
def ContentStore.add (cs : ContentStore) (c : Bytes) : ContentHash × ContentStore :=
  (blake3hash c, cs.insert (blake3hash c) c)

/-- `ContentStore::get`: the bytes, or a "Content not found" error. -/
def ContentStore.get (cs : ContentStore) (h : ContentHash) : Except SyncError Bytes :=
  match lookupA cs.contents h with
  | some c => .ok c
  | none => .error .missingContent

/-- `ContentStore::remove`: drops the bytes; the journal is left alone. -/
def ContentStore.remove (cs : ContentStore) (h : ContentHash) : ContentStore :=
  { cs with contents := eraseA cs.contents h }

/-- `ContentStore::has`. -/
def ContentStore.has (cs : ContentStore) (h : ContentHash) : Bool :=
  (lookupA cs.contents h).isSome

/-- `ContentStore::drain_new_contents`: returns the journal and clears it. -/
def ContentStore.drain_new_contents (cs : ContentStore) : List ContentHash × ContentStore :=
  (cs.new_contents, { cs with new_contents := [] })

/-- `FileChange::conflicts(current_metadata)`: the conflict predicate of a
change against an observed current metadata (arms in source order). -/
def FileChange.conflicts (c : FileChange) (current_metadata : Option FileMetadata) : Bool :=
  match current_metadata, c with
  | some current_meta, .Removed old_meta =>
      current_meta.content_hash ≠ old_meta.content_hash
  | none, .Removed _ => false
  | none, .Created _ => false
  | some current_meta, .Created meta =>
      current_meta.content_hash ≠ meta.content_hash
  | some current_meta, .Modified old_meta new_meta =>
      current_meta.content_hash ≠ old_meta.content_hash
        && current_meta.content_hash ≠ new_meta.content_hash
  | none, .Modified _ _ => true

/-- `FsState::diff(self, next)`, first loop: for every file of `self`,
record `Modified` when `next` holds different content at the path and
`Removed` when `next` lacks the path. -/
def diffPassRemovedModified (next : FsState) (acc : List (FilePath × FileChange)) :
    List (FilePath × FileMetadata) → List (FilePath × FileChange)
  | [] => acc
  | (file_name, metadata) :: rest =>
    match lookupA next.files file_name with
    | some other_metadata =>
      if metadata.content_hash ≠ other_metadata.content_hash then
        diffPassRemovedModified next
          (insertA acc file_name (.Modified metadata other_metadata)) rest
      else
        diffPassRemovedModified next acc rest
    | none =>
      diffPassRemovedModified next (insertA acc file_name (.Removed metadata)) rest

/-- `FsState::diff(self, next)`, second loop: for every file of `next` not
present in `self`, record `Created`. -/
def diffPassCreated (self : FsState) (acc : List (FilePath × FileChange)) :
    List (FilePath × FileMetadata) → List (FilePath × FileChange)
  | [] => acc
  | (file_name, metadata) :: rest =>
    if (lookupA self.files file_name).isSome then
      diffPassCreated self acc rest
    else
      diffPassCreated self (insertA acc file_name (.Created metadata)) rest

/-- `FsState::diff`. -/
def FsState.diff (s next : FsState) : FsStateDiff :=
  ⟨diffPassCreated s (diffPassRemovedModified next [] s.files) next.files⟩

/-- The loop body of `FsState::apply_diff`, processing the diff entries in
order while accumulating the conflicted paths. -/
def applyDiffGo : List (FilePath × FileChange) → FsState → List FilePath →
    FsState × List FilePath
  | [], st, conflicts => (st, conflicts)
  | (file_path, change) :: rest, st, conflicts =>
    if change.conflicts (lookupA st.files file_path) then
      applyDiffGo rest st (conflicts ++ [file_path])
    else
      match change with
      | .Removed _ => applyDiffGo rest ⟨eraseA st.files file_path⟩ conflicts
      | .Created meta => applyDiffGo rest ⟨insertA st.files file_path meta⟩ conflicts
      | .Modified _ meta => applyDiffGo rest ⟨insertA st.files file_path meta⟩ conflicts

/-- `FsState::apply_diff`: mutates the snapshot and returns the list of
conflicted paths (here: the mutated snapshot paired with that list). -/
def FsState.apply_diff (s : FsState) (diff : FsStateDiff) : FsState × List FilePath :=
  applyDiffGo diff.files s []

/-! ## The filesystem model

The tree under the synchronized root is a finite map from relative paths
to entries.  `std::fs::read` succeeds on a `file`, fails with `NotFound`
on an absent path, and fails with some other I/O error both on an
`unreadableFile` (a regular file whose read fails, e.g. `EACCES`) and on a
`nonFile` (directory, socket, ..., e.g. `EISDIR`).  `Path::exists` is true
for all present entries.  The ignore predicate of the scanner is not
modelled (no ignore patterns match). -/

/-- One directory entry of the modelled filesystem. -/
inductive DiskEntry
  | file (content : Bytes)
  | unreadableFile
  | nonFile
deriving DecidableEq, Repr

/-- The filesystem under the root: relative path to entry. -/
abbrev Disk := List (FilePath × DiskEntry)

/-- `entry.file_type().map_or(false, |d| d.is_file())`. -/
def DiskEntry.isRegularFile : DiskEntry → Bool
  | .file _ => true
  | .unreadableFile => true
  | .nonFile => false

/-- `Path::exists` on a relative path. -/
def pathExists (disk : Disk) (p : FilePath) : Bool := (lookupA disk p).isSome

/-- `FileMetadata::from_fs`: read the file, add the bytes to the content
store and return the metadata; `NotFound` maps to `Ok(None)`; any other
read failure is propagated. -/
def FileMetadata.from_fs (disk : Disk) (p : FilePath) (content_store : ContentStore) :
    Except SyncError (Option FileMetadata × ContentStore) :=
  match lookupA disk p with
  | some (.file content) =>
    let (content_hash, cs') := content_store.add content
    .ok (some ⟨content_hash⟩, cs')
  | none => .ok (none, content_store)
  | some .unreadableFile => .error .ioError
  | some .nonFile => .error .ioError

/-- The walk of `FsState::from_disk`: over each entry of the tree, in
order; regular files are read via `FileMetadata::from_fs` (errors
propagate), everything else is skipped. -/
def fromDiskGo (disk : Disk) : List (FilePath × DiskEntry) →
    List (FilePath × FileMetadata) → ContentStore →
    Except SyncError (FsState × ContentStore)
  | [], files, cs => .ok (⟨files⟩, cs)
  | (p, e) :: rest, files, cs =>
    if e.isRegularFile then
      match FileMetadata.from_fs disk p cs with
      | .error er => .error er
      | .ok (some meta, cs') => fromDiskGo disk rest (insertA files p meta) cs'
      | .ok (none, cs') => fromDiskGo disk rest files cs'
    else
      fromDiskGo disk rest files cs

/-- `FsState::from_disk`. -/
def FsState.from_disk (disk : Disk) (content_store : ContentStore) :
    Except SyncError (FsState × ContentStore) :=
  fromDiskGo disk disk [] content_store

/-- `FsState::refresh_path`: re-stat a single path.  Note the shape of the
source: the `Result` of `FileMetadata::from_fs` is matched with
`if let Ok(Some(_))`, so a read failure other than `NotFound` falls
through to the `!path.exists()` check and — the path existing — is
silently discarded (`Ok(None)`, "noop for other file types"). -/
def FsState.refresh_path (s : FsState) (disk : Disk) (p : FilePath)
    (content_store : ContentStore) :
    Option (FilePath × FileChange) × FsState × ContentStore :=
  match FileMetadata.from_fs disk p content_store with
  | .ok (some new_metadata, cs') =>
    match lookupA s.files p with
    | some old_metadata =>
      if old_metadata.content_hash ≠ new_metadata.content_hash then
        (some (p, .Modified old_metadata new_metadata), ⟨insertA s.files p new_metadata⟩, cs')
      else
        (none, s, cs')
    | none =>
      (some (p, .Created new_metadata), ⟨insertA s.files p new_metadata⟩, cs')
  | _ =>
    if ¬ pathExists disk p then
      match lookupA s.files p with
      | some old_metadata => (some (p, .Removed old_metadata), ⟨eraseA s.files p⟩, content_store)
      | none => (none, s, content_store)
    else
      (none, s, content_store)

/-- `FsState::refresh_paths`: refresh each path, folding the produced
changes into one diff. -/
def refreshPathsGo (disk : Disk) : List FilePath →
    FsState → List (FilePath × FileChange) → ContentStore →
    FsStateDiff × FsState × ContentStore
  | [], s, acc, cs => (⟨acc⟩, s, cs)
  | p :: rest, s, acc, cs =>
    match s.refresh_path disk p cs with
    | (some (fp, change), s', cs') => refreshPathsGo disk rest s' (insertA acc fp change) cs'
    | (none, s', cs') => refreshPathsGo disk rest s' acc cs'

/-- `FsState::refresh_paths`. -/
def FsState.refresh_paths (s : FsState) (disk : Disk) (paths : List FilePath)
    (content_store : ContentStore) : FsStateDiff × FsState × ContentStore :=
  refreshPathsGo disk paths s [] content_store

/-- The loop body of `FsState::apply_diff_to_disk`: for each entry the
*on-disk* current metadata decides conflicts (hashing the present bytes
into the store as a side effect); non-conflicting changes are applied to
disk and folded into the snapshot. -/
def applyDiffToDiskGo : List (FilePath × FileChange) → FsState → Disk → ContentStore →
    List FilePath → Except SyncError (FsState × Disk × ContentStore × List FilePath)
  | [], st, disk, cs, conflicts => .ok (st, disk, cs, conflicts)
  | (file_path, change) :: rest, st, disk, cs, conflicts =>
    match FileMetadata.from_fs disk file_path cs with
    | .error e => .error e
    | .ok (metadata, cs') =>
      if change.conflicts metadata then
        applyDiffToDiskGo rest st disk cs' (conflicts ++ [file_path])
      else
        match change with
        | .Removed _ =>
          applyDiffToDiskGo rest ⟨eraseA st.files file_path⟩ (eraseA disk file_path) cs' conflicts
        | .Created meta =>
          match cs'.get meta.content_hash with
          | .error e => .error e
          | .ok content =>
            applyDiffToDiskGo rest ⟨insertA st.files file_path meta⟩
              (insertA disk file_path (.file content)) cs' conflicts
        | .Modified _ meta =>
          match cs'.get meta.content_hash with
          | .error e => .error e
          | .ok content =>
            applyDiffToDiskGo rest ⟨insertA st.files file_path meta⟩
              (insertA disk file_path (.file content)) cs' conflicts

/-- `FsState::apply_diff_to_disk`. -/
def FsState.apply_diff_to_disk (s : FsState) (diff : FsStateDiff) (disk : Disk)
    (content_store : ContentStore) :
    Except SyncError (FsState × Disk × ContentStore × List FilePath) :=
  applyDiffToDiskGo diff.files s disk content_store []

/-! ## The reconciler (`Node`) -/

/-- `Node { this_state, other_state, conflicts }`: the peer's own snapshot,
its view of the other peer's tree, and the per-peer conflict log. -/
structure Node where
  this_state : FsState
  other_state : FsState
  conflicts : List FilePath
deriving DecidableEq, Repr

/-- `NodeMessage`: the steady-state wire messages. -/
inductive NodeMessage
  | Changes (new_content : List Bytes) (diff : FsStateDiff)
  | ChangesResponse (accepted_diff : FsStateDiff)
deriving DecidableEq, Repr

/-- `Node::new`. -/
def Node.new (this_state other_state : FsState) : Node :=
  ⟨this_state, other_state, []⟩

/-- `Node::changes_for_other`: `self.other_state.diff(&self.this_state)`. -/
def Node.changes_for_other (n : Node) : FsStateDiff :=
  n.other_state.diff n.this_state

/-- `Node::changes_acked_by_other`: apply the accepted diff to the peer
view; conflicts there are only logged, never recorded. -/
def Node.changes_acked_by_other (n : Node) (diff : FsStateDiff) : Node :=
  { n with other_state := (n.other_state.apply_diff diff).1 }

/-- `Node::apply_changes_from_other_mem`: apply the incoming diff first to
the peer view (conflicts there only logged) and then to the own snapshot;
record the own-snapshot conflicts and answer with the accepted subset. -/
def Node.apply_changes_from_other_mem (n : Node) (diff : FsStateDiff) :
    FsStateDiff × Node :=
  (⟨diff.files.filter fun pc => !((n.this_state.apply_diff diff).2.contains pc.1)⟩,
   { this_state := (n.this_state.apply_diff diff).1
     other_state := (n.other_state.apply_diff diff).1
     conflicts := n.conflicts ++ (n.this_state.apply_diff diff).2 })

/-- `Node::apply_changes_from_other_to_disk`: apply the incoming diff to
disk and own snapshot; record conflicts; answer with the accepted subset.
The peer view is untouched. -/
def Node.apply_changes_from_other_to_disk (n : Node) (diff : FsStateDiff) (disk : Disk)
    (content_store : ContentStore) :
    Except SyncError (FsStateDiff × Node × Disk × ContentStore) :=
  match n.this_state.apply_diff_to_disk diff disk content_store with
  | .error e => .error e
  | .ok (this', disk', cs', conflicts) =>
    .ok (⟨diff.files.filter fun pc => !(conflicts.contains pc.1)⟩,
         { this_state := this', other_state := n.other_state,
           conflicts := n.conflicts ++ conflicts },
         disk', cs')

/-- The blob-ingestion loop shared by both message handlers:
`for content in new_content { content_store.add(content); }`. -/
def ingestBlobs (content_store : ContentStore) (new_content : List Bytes) : ContentStore :=
  new_content.foldl (fun cs content => (cs.add content).2) content_store

/-- `Node::handle_message_disk`. -/
def Node.handle_message_disk (n : Node) (message : NodeMessage) (disk : Disk)
    (content_store : ContentStore) :
    Except SyncError (Option NodeMessage × Node × Disk × ContentStore) :=
  match message with
  | .Changes new_content diff =>
    match n.apply_changes_from_other_to_disk diff disk
        (ingestBlobs content_store new_content) with
    | .error e => .error e
    | .ok (accepted_diff, n', disk', cs') =>
      .ok (some (.ChangesResponse accepted_diff), n', disk', cs')
  | .ChangesResponse accepted_diff =>
    .ok (none, n.changes_acked_by_other accepted_diff, disk, content_store)

/-- `Node::handle_message_mem`.  (The source returns `Result`, but no arm
can fail; the model returns the value directly.) -/
def Node.handle_message_mem (n : Node) (message : NodeMessage)
    (content_store : ContentStore) : Option NodeMessage × Node × ContentStore :=
  match message with
  | .Changes new_content diff =>
    (some (.ChangesResponse (n.apply_changes_from_other_mem diff).1),
     (n.apply_changes_from_other_mem diff).2,
     ingestBlobs content_store new_content)
  | .ChangesResponse accepted_diff =>
    (none, n.changes_acked_by_other accepted_diff, content_store)

/-- The blob-payload construction shared by `Node::messages_for_other` and
`Node::refresh_paths`: `content_store.get(&hash).unwrap().to_vec()` for
each drained hash.  The `.unwrap()` on a missing hash is a panic, modelled
as the `panicMissing` error. -/
def collectNewContent (content_store : ContentStore) :
    List ContentHash → Except SyncError (List Bytes)
  | [] => .ok []
  | h :: rest =>
    match content_store.get h with
    | .error _ => .error .panicMissing
    | .ok c =>
      match collectNewContent content_store rest with
      | .error e => .error e
      | .ok cs => .ok (c :: cs)

/-- `Node::messages_for_other`: drain the journal and package the diff
against the peer view together with the new blobs. -/
def Node.messages_for_other (n : Node) (content_store : ContentStore) :
    Except SyncError (NodeMessage × ContentStore) :=
  match collectNewContent content_store.drain_new_contents.2
      content_store.drain_new_contents.1 with
  | .error e => .error e
  | .ok new_content =>
    .ok (.Changes new_content n.changes_for_other, content_store.drain_new_contents.2)

/-- `Node::refresh_paths`: rescan the given paths; if anything changed,
drain the journal and emit a `Changes` message. -/
def Node.refresh_paths (n : Node) (disk : Disk) (paths : List FilePath)
    (content_store : ContentStore) :
    Except SyncError (Option NodeMessage × Node × ContentStore) :=
  if (n.this_state.refresh_paths disk paths content_store).1.is_empty then
    .ok (none,
      { n with this_state := (n.this_state.refresh_paths disk paths content_store).2.1 },
      (n.this_state.refresh_paths disk paths content_store).2.2)
  else
    match collectNewContent
        (n.this_state.refresh_paths disk paths content_store).2.2.drain_new_contents.2
        (n.this_state.refresh_paths disk paths content_store).2.2.drain_new_contents.1 with
    | .error e => .error e
    | .ok new_content =>
      .ok (some (.Changes new_content
            (n.this_state.refresh_paths disk paths content_store).1),
        { n with this_state := (n.this_state.refresh_paths disk paths content_store).2.1 },
        (n.this_state.refresh_paths disk paths content_store).2.2.drain_new_contents.2)

/-- `Node::has_conflicts`. -/
def Node.has_conflicts (n : Node) : Bool := !n.conflicts.isEmpty

/-- `Node::is_settle`: `self.this_state == self.other_state`. -/
def Node.is_settle (n : Node) : Bool := decide (n.this_state = n.other_state)

/-! ## Characterization lemmas for the snapshot algebra -/

/-- The snapshot value a non-conflicting change installs at its path
(`Removed` deletes, `Created`/`Modified` install the new metadata). -/
def applyChangeVal : FileChange → Option FileMetadata
  | .Removed _ => none
  | .Created meta => some meta
  | .Modified _ meta => some meta

/-- The conflicted paths of a diff-entry list against a fixed snapshot, in
entry order. -/
def conflictKeys (st : FsState) (l : List (FilePath × FileChange)) : List FilePath :=
  (l.filter fun pc => pc.2.conflicts (lookupA st.files pc.1)).map Prod.fst

theorem diffPassRemovedModified_lookup (next : FsState)
    (l : List (FilePath × FileMetadata)) (acc : List (FilePath × FileChange))
    (hnd : (keysA l).Nodup) (q : FilePath) :
    lookupA (diffPassRemovedModified next acc l) q =
      match lookupA l q with
      | some metadata =>
        match lookupA next.files q with
        | some other_metadata =>
          if metadata.content_hash ≠ other_metadata.content_hash then
            some (.Modified metadata other_metadata)
          else lookupA acc q
        | none => some (.Removed metadata)
      | none => lookupA acc q := by
  induction l generalizing acc with
  | nil => simp [diffPassRemovedModified, lookupA]
  | cons kv rest ih =>
    obtain ⟨k, m⟩ := kv
    simp only [keysA, List.map_cons, List.nodup_cons] at hnd
    have hrest := hnd.2
    by_cases hq : q = k
    · subst hq
      have hrq : lookupA rest q = none :=
        lookupA_eq_none.mpr (by exact hnd.1)
      cases hnext : lookupA next.files q with
      | some om =>
        by_cases hne : m.content_hash ≠ om.content_hash
        · simp only [diffPassRemovedModified, hnext, if_pos hne]
          rw [ih _ hrest, hrq]
          simp [lookupA, lookupA_insertA_self, hnext, hne]
        · simp only [diffPassRemovedModified, hnext, if_neg hne]
          rw [ih _ hrest, hrq]
          simp [lookupA, hnext, hne]
      | none =>
        simp only [diffPassRemovedModified, hnext]
        rw [ih _ hrest, hrq]
        simp [lookupA, lookupA_insertA_self, hnext]
    · cases hnext : lookupA next.files k with
      | some om =>
        by_cases hne : m.content_hash ≠ om.content_hash
        · simp only [diffPassRemovedModified, hnext, if_pos hne]
          rw [ih _ hrest]
          simp [lookupA, hq, lookupA_insertA_ne _ _ hq]
        · simp only [diffPassRemovedModified, hnext, if_neg hne]
          rw [ih _ hrest]
          simp [lookupA, hq]
      | none =>
        simp only [diffPassRemovedModified, hnext]
        rw [ih _ hrest]
        simp [lookupA, hq, lookupA_insertA_ne _ _ hq]

theorem diffPassCreated_lookup (self : FsState)
    (l : List (FilePath × FileMetadata)) (acc : List (FilePath × FileChange))
    (hnd : (keysA l).Nodup) (q : FilePath) :
    lookupA (diffPassCreated self acc l) q =
      match lookupA l q with
      | some metadata =>
        if (lookupA self.files q).isSome then lookupA acc q
        else some (.Created metadata)
      | none => lookupA acc q := by
  induction l generalizing acc with
  | nil => simp [diffPassCreated, lookupA]
  | cons kv rest ih =>
    obtain ⟨k, m⟩ := kv
    simp only [keysA, List.map_cons, List.nodup_cons] at hnd
    have hrest := hnd.2
    by_cases hq : q = k
    · subst hq
      have hrq : lookupA rest q = none :=
        lookupA_eq_none.mpr (by exact hnd.1)
      by_cases hself : (lookupA self.files q).isSome
      · simp only [diffPassCreated, if_pos hself]
        rw [ih _ hrest, hrq]
        simp [lookupA, hself]
      · simp only [diffPassCreated, if_neg hself]
        rw [ih _ hrest, hrq]
        simp [lookupA, lookupA_insertA_self, hself]
    · by_cases hself : (lookupA self.files k).isSome
      · simp only [diffPassCreated, if_pos hself]
        rw [ih _ hrest]
        simp [lookupA, hq]
      · simp only [diffPassCreated, if_neg hself]
        rw [ih _ hrest]
        simp [lookupA, hq, lookupA_insertA_ne _ _ hq]

theorem diffPassRemovedModified_sorted (next : FsState)
    (l : List (FilePath × FileMetadata)) (acc : List (FilePath × FileChange))
    (hacc : SortedA acc) : SortedA (diffPassRemovedModified next acc l) := by
  induction l generalizing acc with
  | nil => exact hacc
  | cons kv rest ih =>
    obtain ⟨k, m⟩ := kv
    cases hnext : lookupA next.files k with
    | some om =>
      by_cases hne : m.content_hash ≠ om.content_hash
      · simp only [diffPassRemovedModified, hnext, if_pos hne]
        exact ih _ (sortedA_insertA hacc _ _)
      · simp only [diffPassRemovedModified, hnext, if_neg hne]
        exact ih _ hacc
    | none =>
      simp only [diffPassRemovedModified, hnext]
      exact ih _ (sortedA_insertA hacc _ _)

theorem diffPassCreated_sorted (self : FsState)
    (l : List (FilePath × FileMetadata)) (acc : List (FilePath × FileChange))
    (hacc : SortedA acc) : SortedA (diffPassCreated self acc l) := by
  induction l generalizing acc with
  | nil => exact hacc
  | cons kv rest ih =>
    obtain ⟨k, m⟩ := kv
    by_cases hself : (lookupA self.files k).isSome
    · simp only [diffPassCreated, if_pos hself]
      exact ih _ hacc
    · simp only [diffPassCreated, if_neg hself]
      exact ih _ (sortedA_insertA hacc _ _)

/-- `FsState::diff`, pointwise: its entry at a path is determined by the
two snapshots' metadata there, exactly as the spec's table states. -/
theorem FsState.diff_lookup (s t : FsState) (hs : SortedA s.files)
    (ht : SortedA t.files) (q : FilePath) :
    lookupA (s.diff t).files q =
      match lookupA s.files q, lookupA t.files q with
      | some a, some b =>
        if a.content_hash ≠ b.content_hash then some (.Modified a b) else none
      | some a, none => some (.Removed a)
      | none, some b => some (.Created b)
      | none, none => none := by
  show lookupA (diffPassCreated s (diffPassRemovedModified t [] s.files) t.files) q = _
  rw [diffPassCreated_lookup _ _ _ (sortedA_keys_nodup ht),
    diffPassRemovedModified_lookup _ _ _ (sortedA_keys_nodup hs)]
  cases hsq : lookupA s.files q <;> cases htq : lookupA t.files q <;>
    simp [lookupA, hsq, htq]

theorem FsState.diff_sorted (s t : FsState) : SortedA (s.diff t).files :=
  diffPassCreated_sorted _ _ _ (diffPassRemovedModified_sorted _ _ _ sortedA_nil)

/-- A path at which two snapshots agree contributes no diff entry. -/
theorem FsState.diff_lookup_none_iff (s t : FsState) (hs : SortedA s.files)
    (ht : SortedA t.files) (q : FilePath) :
    lookupA (s.diff t).files q = none ↔ lookupA s.files q = lookupA t.files q := by
  rw [FsState.diff_lookup s t hs ht q]
  cases hsq : lookupA s.files q with
  | some a =>
    cases htq : lookupA t.files q with
    | some b =>
      by_cases hne : a.content_hash ≠ b.content_hash
      · simp only [if_pos hne]
        constructor
        · intro h; exact Option.noConfusion h
        · intro h
          obtain ⟨⟩ := a
          obtain ⟨⟩ := b
          simp at h
          exact absurd (by simp [h]) hne
      · simp only [if_neg hne]
        push_neg at hne
        have hab : a = b := by
          cases a; cases b; simpa using hne
        simp [hab]
    | none => simp
  | none =>
    cases htq : lookupA t.files q with
    | some b => simp
    | none => simp

theorem applyDiffGo_sorted (l : List (FilePath × FileChange)) (st : FsState)
    (acc : List FilePath) (hst : SortedA st.files) :
    SortedA (applyDiffGo l st acc).1.files := by
  induction l generalizing st acc with
  | nil => exact hst
  | cons pc rest ih =>
    obtain ⟨p, c⟩ := pc
    by_cases hconf : c.conflicts (lookupA st.files p)
    · simp only [applyDiffGo, if_pos hconf]
      exact ih _ _ hst
    · simp only [applyDiffGo, if_neg hconf]
      cases c with
      | Removed old => exact ih _ _ (sortedA_eraseA hst p)
      | Created meta => exact ih _ _ (sortedA_insertA hst p meta)
      | Modified old meta => exact ih _ _ (sortedA_insertA hst p meta)

theorem applyDiffGo_conflicts (l : List (FilePath × FileChange)) (st : FsState)
    (acc : List FilePath) (hst : SortedA st.files) (hnd : (keysA l).Nodup) :
    (applyDiffGo l st acc).2 = acc ++ conflictKeys st l := by
  induction l generalizing st acc with
  | nil => simp [applyDiffGo, conflictKeys]
  | cons pc rest ih =>
    obtain ⟨p, c⟩ := pc
    simp only [keysA, List.map_cons, List.nodup_cons] at hnd
    have hlook : ∀ x ∈ rest, x.1 ≠ p := by
      intro x hx hfst
      exact hnd.1 (hfst ▸ List.mem_map_of_mem Prod.fst hx)
    by_cases hconf : c.conflicts (lookupA st.files p)
    · simp only [applyDiffGo, if_pos hconf]
      rw [ih st (acc ++ [p]) hst hnd.2]
      simp [conflictKeys, hconf]
    · simp only [applyDiffGo, if_neg hconf]
      have congr_rest : ∀ st' : FsState,
          (∀ q, q ≠ p → lookupA st'.files q = lookupA st.files q) →
          conflictKeys st' rest = conflictKeys st rest := by
        intro st' hsame
        unfold conflictKeys
        congr 1
        apply List.filter_congr
        intro x hx
        rw [hsame x.1 (hlook x hx)]
      cases c with
      | Removed old =>
        rw [ih _ _ (sortedA_eraseA hst p) hnd.2,
          congr_rest _ (fun q hq => lookupA_eraseA_ne _ hq)]
        simp [conflictKeys, hconf]
      | Created meta =>
        rw [ih _ _ (sortedA_insertA hst p meta) hnd.2,
          congr_rest _ (fun q hq => lookupA_insertA_ne _ _ hq)]
        simp [conflictKeys, hconf]
      | Modified old meta =>
        rw [ih _ _ (sortedA_insertA hst p meta) hnd.2,
          congr_rest _ (fun q hq => lookupA_insertA_ne _ _ hq)]
        simp [conflictKeys, hconf]

theorem applyDiffGo_lookup (l : List (FilePath × FileChange)) (st : FsState)
    (acc : List FilePath) (hst : SortedA st.files) (hnd : (keysA l).Nodup)
    (q : FilePath) :
    lookupA (applyDiffGo l st acc).1.files q =
      match lookupA l q with
      | some c =>
        if c.conflicts (lookupA st.files q) then lookupA st.files q
        else applyChangeVal c
      | none => lookupA st.files q := by
  induction l generalizing st acc with
  | nil => simp [applyDiffGo, lookupA]
  | cons pc rest ih =>
    obtain ⟨p, c⟩ := pc
    simp only [keysA, List.map_cons, List.nodup_cons] at hnd
    have hrq : lookupA rest p = none :=
      lookupA_eq_none.mpr (by exact hnd.1)
    by_cases hqp : q = p
    · subst hqp
      by_cases hconf : c.conflicts (lookupA st.files q)
      · simp only [applyDiffGo, if_pos hconf]
        rw [ih st _ hst hnd.2, hrq]
        simp [lookupA, hconf]
      · simp only [applyDiffGo, if_neg hconf]
        cases c with
        | Removed old =>
          rw [ih _ _ (sortedA_eraseA hst q) hnd.2, hrq]
          simp only [lookupA, if_pos rfl, if_neg hconf]
          simp [applyChangeVal, lookupA_eraseA_self (sortedA_keys_nodup hst) q, hconf]
        | Created meta =>
          rw [ih _ _ (sortedA_insertA hst q meta) hnd.2, hrq]
          simp only [lookupA, if_pos rfl, if_neg hconf]
          simp [applyChangeVal, lookupA_insertA_self, hconf]
        | Modified old meta =>
          rw [ih _ _ (sortedA_insertA hst q meta) hnd.2, hrq]
          simp only [lookupA, if_pos rfl, if_neg hconf]
          simp [applyChangeVal, lookupA_insertA_self, hconf]
    · by_cases hconf : c.conflicts (lookupA st.files p)
      · simp only [applyDiffGo, if_pos hconf]
        rw [ih st _ hst hnd.2]
        simp [lookupA, hqp]
      · simp only [applyDiffGo, if_neg hconf]
        cases c with
        | Removed old =>
          rw [ih _ _ (sortedA_eraseA hst p) hnd.2]
          simp [lookupA, hqp, lookupA_eraseA_ne _ hqp]
        | Created meta =>
          rw [ih _ _ (sortedA_insertA hst p meta) hnd.2]
          simp [lookupA, hqp, lookupA_insertA_ne _ _ hqp]
        | Modified old meta =>
          rw [ih _ _ (sortedA_insertA hst p meta) hnd.2]
          simp [lookupA, hqp, lookupA_insertA_ne _ _ hqp]

/-- `FsState::apply_diff`, pointwise. -/
theorem FsState.apply_diff_lookup (s : FsState) (d : FsStateDiff)
    (hs : SortedA s.files) (hnd : (keysA d.files).Nodup) (q : FilePath) :
    lookupA (s.apply_diff d).1.files q =
      match lookupA d.files q with
      | some c =>
        if c.conflicts (lookupA s.files q) then lookupA s.files q
        else applyChangeVal c
      | none => lookupA s.files q :=
  applyDiffGo_lookup d.files s [] hs hnd q

/-- `FsState::apply_diff`: the returned conflict list. -/
theorem FsState.apply_diff_conflicts (s : FsState) (d : FsStateDiff)
    (hs : SortedA s.files) (hnd : (keysA d.files).Nodup) :
    (s.apply_diff d).2 = conflictKeys s d.files := by
  have := applyDiffGo_conflicts d.files s [] hs hnd
  simpa [FsState.apply_diff] using this

theorem FsState.apply_diff_sorted (s : FsState) (d : FsStateDiff)
    (hs : SortedA s.files) : SortedA (s.apply_diff d).1.files :=
  applyDiffGo_sorted d.files s [] hs

/-- Inversion of `FsState.diff_lookup`: the three shapes a diff entry can
take, each tied to the two snapshots' metadata at its path. -/
theorem FsState.diff_entry_cases {s t : FsState} (hs : SortedA s.files)
    (ht : SortedA t.files) {p : FilePath} {c : FileChange}
    (hpc : lookupA (s.diff t).files p = some c) :
    (∃ a b, lookupA s.files p = some a ∧ lookupA t.files p = some b ∧
      a.content_hash ≠ b.content_hash ∧ c = .Modified a b) ∨
    (∃ a, lookupA s.files p = some a ∧ lookupA t.files p = none ∧ c = .Removed a) ∨
    (∃ b, lookupA s.files p = none ∧ lookupA t.files p = some b ∧ c = .Created b) := by
  rw [FsState.diff_lookup s t hs ht p] at hpc
  cases hsq : lookupA s.files p with
  | some a =>
    cases htq : lookupA t.files p with
    | some b =>
      rw [hsq, htq] at hpc
      by_cases hne : a.content_hash ≠ b.content_hash
      · simp only [if_pos hne] at hpc
        exact Or.inl ⟨a, b, rfl, rfl, hne, (Option.some.injEq .. ▸ hpc).symm⟩
      · simp only [if_neg hne] at hpc
        exact Option.noConfusion hpc
    | none =>
      rw [hsq, htq] at hpc
      exact Or.inr (Or.inl ⟨a, rfl, rfl, (Option.some.injEq .. ▸ hpc).symm⟩)
  | none =>
    cases htq : lookupA t.files p with
    | some b =>
      rw [hsq, htq] at hpc
      exact Or.inr (Or.inr ⟨b, rfl, rfl, (Option.some.injEq .. ▸ hpc).symm⟩)
    | none =>
      rw [hsq, htq] at hpc
      exact Option.noConfusion hpc

/-- A diff entry never conflicts with a current state that still matches
the diff's base snapshot at that path. -/
theorem diff_entry_no_conflict {s t : FsState} (hs : SortedA s.files)
    (ht : SortedA t.files) {p : FilePath} {c : FileChange}
    (hpc : lookupA (s.diff t).files p = some c) {cur : Option FileMetadata}
    (hcur : cur = lookupA s.files p) : c.conflicts cur = false := by
  rcases FsState.diff_entry_cases hs ht hpc with
    ⟨a, b, hsp, _, _, hc⟩ | ⟨a, hsp, _, hc⟩ | ⟨b, hsp, _, hc⟩ <;>
    subst hc <;> rw [hcur, hsp] <;> simp [FileChange.conflicts]

/-- A non-conflicting diff entry installs the target snapshot's value. -/
theorem diff_entry_apply_val {s t : FsState} (hs : SortedA s.files)
    (ht : SortedA t.files) {p : FilePath} {c : FileChange}
    (hpc : lookupA (s.diff t).files p = some c) :
    applyChangeVal c = lookupA t.files p := by
  rcases FsState.diff_entry_cases hs ht hpc with
    ⟨a, b, _, htp, _, hc⟩ | ⟨a, _, htp, hc⟩ | ⟨b, _, htp, hc⟩ <;>
    subst hc <;> rw [htp] <;> simp [applyChangeVal]

theorem FsState.files_ext {s t : FsState} (h : s.files = t.files) : s = t := by
  cases s; cases t; cases h; rfl

/-- Applying `diff(s, t)` to a state that matches `s` on the diff's paths
produces no conflicts. -/
theorem diff_conflictKeys_nil {s t u : FsState} (hs : SortedA s.files)
    (ht : SortedA t.files)
    (hu : ∀ p c, lookupA (s.diff t).files p = some c →
      lookupA u.files p = lookupA s.files p) :
    conflictKeys u (s.diff t).files = [] := by
  have hnd := sortedA_keys_nodup (FsState.diff_sorted s t)
  unfold conflictKeys
  have hfil : ((s.diff t).files.filter fun pc =>
      pc.2.conflicts (lookupA u.files pc.1)) = [] := by
    rw [List.filter_eq_nil_iff]
    intro pc hpc
    have hl : lookupA (s.diff t).files pc.1 = some pc.2 :=
      lookupA_of_mem hnd (by exact hpc)
    simp [diff_entry_no_conflict hs ht hl (hu pc.1 pc.2 hl)]
  rw [hfil]
  rfl

/-! ## The claims -/

/-- C1: For every pair of snapshots `s` and `t` such that every ContentId
referenced is present in the store, applying `diff(s, t)` to `s` via
`FsState::apply_diff` turns `s` into a state equal to `t` and returns an
empty conflict list.  (The blob-presence hypothesis is stated as the claim
does; the in-memory application never consults the store.) -/
theorem diff_apply_inverse (s t : FsState) (content_store : ContentStore)
    (hs : SortedA s.files) (ht : SortedA t.files)
    (_hblobs : ∀ pc ∈ s.files, content_store.has pc.2.content_hash = true)
    (_hblobt : ∀ pc ∈ t.files, content_store.has pc.2.content_hash = true) :
    s.apply_diff (s.diff t) = (t, []) := by
  have hd := FsState.diff_sorted s t
  have hnd := sortedA_keys_nodup hd
  have hconf : (s.apply_diff (s.diff t)).2 = [] := by
    rw [FsState.apply_diff_conflicts _ _ hs hnd,
      diff_conflictKeys_nil hs ht (fun _ _ _ => rfl)]
  have hstate : (s.apply_diff (s.diff t)).1 = t := by
    apply FsState.files_ext
    apply sortedA_lookup_ext (FsState.apply_diff_sorted _ _ hs) ht
    intro q
    rw [FsState.apply_diff_lookup _ _ hs hnd q]
    cases hdq : lookupA (s.diff t).files q with
    | some c =>
      simp only [diff_entry_no_conflict hs ht hdq rfl]
      simpa using diff_entry_apply_val hs ht hdq
    | none =>
      exact (FsState.diff_lookup_none_iff s t hs ht q).mp hdq
  calc s.apply_diff (s.diff t)
      = ((s.apply_diff (s.diff t)).1, (s.apply_diff (s.diff t)).2) := rfl
    _ = (t, []) := by rw [hstate, hconf]

/-- Witness for C1 at concrete snapshots. -/
theorem diff_apply_inverse_witness :
    (FsState.mk [(['a'], ⟨[1]⟩), (['b'], ⟨[2]⟩)]).apply_diff
        ((FsState.mk [(['a'], ⟨[1]⟩), (['b'], ⟨[2]⟩)]).diff
          (FsState.mk [(['a'], ⟨[3]⟩), (['c'], ⟨[2]⟩)])) =
      (FsState.mk [(['a'], ⟨[3]⟩), (['c'], ⟨[2]⟩)], []) :=
  diff_apply_inverse
    (FsState.mk [(['a'], ⟨[1]⟩), (['b'], ⟨[2]⟩)])
    (FsState.mk [(['a'], ⟨[3]⟩), (['c'], ⟨[2]⟩)])
    (ContentStore.mk [([1], [1]), ([2], [2]), ([3], [3])] [])
    (by decide) (by decide) (by decide) (by decide)

/-- C2: `FileChange::conflicts` returns exactly the spec's table:
`Created` never conflicts with an absent file and conflicts with a present
file of different content; `Removed` never conflicts with an absent file
and conflicts with a present file differing from the old content;
`Modified` always conflicts with an absent file and conflicts with a
present file differing from both old and new content. -/
theorem conflicts_matches_table (m new_meta old_meta : FileMetadata) :
    (FileChange.Created new_meta).conflicts none = false ∧
    (FileChange.Created new_meta).conflicts (some m) =
      decide (m.content_hash ≠ new_meta.content_hash) ∧
    (FileChange.Removed old_meta).conflicts none = false ∧
    (FileChange.Removed old_meta).conflicts (some m) =
      decide (m.content_hash ≠ old_meta.content_hash) ∧
    (FileChange.Modified old_meta new_meta).conflicts none = true ∧
    (FileChange.Modified old_meta new_meta).conflicts (some m) =
      (decide (m.content_hash ≠ old_meta.content_hash) &&
        decide (m.content_hash ≠ new_meta.content_hash)) :=
  ⟨rfl, rfl, rfl, rfl, rfl, rfl⟩

/-- Reduction of `Node::handle_message_disk` on a `Changes` message to the
underlying disk application. -/
theorem handle_message_disk_changes (n : Node) (new_content : List Bytes)
    (diff : FsStateDiff) (disk : Disk) (content_store : ContentStore) :
    n.handle_message_disk (.Changes new_content diff) disk content_store =
      match n.this_state.apply_diff_to_disk diff disk
          (ingestBlobs content_store new_content) with
      | .error e => .error e
      | .ok (st', disk', cs', confl) =>
        .ok (some (.ChangesResponse
              ⟨diff.files.filter fun pc => !(confl.contains pc.1)⟩),
            { this_state := st', other_state := n.other_state,
              conflicts := n.conflicts ++ confl },
            disk', cs') := by
  cases happ : n.this_state.apply_diff_to_disk diff disk
      (ingestBlobs content_store new_content) with
  | error e =>
    simp [Node.handle_message_disk, Node.apply_changes_from_other_to_disk, happ]
  | ok r =>
    obtain ⟨st', disk', cs', confl⟩ := r
    simp [Node.handle_message_disk, Node.apply_changes_from_other_to_disk, happ]

/-- C3 (counterexample): it is not the case that every handler leaves the
peer view untouched on an inbound `Changes` message — the in-memory
handler applies the incoming diff to `other_state` as well.  At the
concrete input below, `other_state` moves from the empty snapshot to one
holding the created file. -/
theorem mem_handler_moves_peer_view :
    (Node.handle_message_mem (Node.mk ⟨[]⟩ ⟨[]⟩ [])
        (.Changes [] ⟨[(['a'], .Created ⟨[1]⟩)]⟩) ContentStore.empty).2.1.other_state ≠
      (Node.mk ⟨[]⟩ ⟨[]⟩ []).other_state := by
  decide

/-- C3 (amended): on an inbound `Changes` message the disk-applying
handler leaves the peer view (`other_state`) untouched — only the
receiver's own snapshot moves — while the in-memory handler additionally
applies the incoming diff to the peer view. -/
theorem changes_handler_peer_view (n : Node) (new_content : List Bytes)
    (diff : FsStateDiff) (disk : Disk) (content_store : ContentStore) :
    (∀ resp n' disk' cs',
      n.handle_message_disk (.Changes new_content diff) disk content_store =
        .ok (resp, n', disk', cs') → n'.other_state = n.other_state) ∧
    (n.handle_message_mem (.Changes new_content diff) content_store).2.1.other_state =
      (n.other_state.apply_diff diff).1 := by
  constructor
  · intro resp n' disk' cs' h
    rw [handle_message_disk_changes] at h
    cases happ : n.this_state.apply_diff_to_disk diff disk
        (ingestBlobs content_store new_content) with
    | error e =>
      rw [happ] at h
      simp at h
    | ok r =>
      obtain ⟨st', disk'', cs'', confl⟩ := r
      rw [happ] at h
      simp only [Except.ok.injEq, Prod.mk.injEq] at h
      rw [← h.2.1]
  · rfl

/-- Witness for the amended C3 at a concrete input: the disk handler
succeeds and indeed preserves the peer view. -/
theorem changes_handler_peer_view_witness :
    ((Node.mk ⟨[]⟩ ⟨[(['b'], ⟨[2]⟩)]⟩ []).handle_message_disk
        (.Changes [[1]] ⟨[(['a'], .Created ⟨[1]⟩)]⟩) [] ContentStore.empty =
      .ok (some (.ChangesResponse ⟨[(['a'], .Created ⟨[1]⟩)]⟩),
        Node.mk ⟨[(['a'], ⟨[1]⟩)]⟩ ⟨[(['b'], ⟨[2]⟩)]⟩ [],
        [(['a'], DiskEntry.file [1])], ContentStore.mk [([1], [1])] [[1]])) ∧
    (Node.mk ⟨[(['a'], ⟨[1]⟩)]⟩ ⟨[(['b'], ⟨[2]⟩)]⟩ []).other_state =
      (Node.mk ⟨[]⟩ ⟨[(['b'], ⟨[2]⟩)]⟩ []).other_state := by
  refine ⟨by rfl, ?_⟩
  exact (changes_handler_peer_view (Node.mk ⟨[]⟩ ⟨[(['b'], ⟨[2]⟩)]⟩ []) [[1]]
    ⟨[(['a'], .Created ⟨[1]⟩)]⟩ [] ContentStore.empty).1
    (some (.ChangesResponse ⟨[(['a'], .Created ⟨[1]⟩)]⟩))
    (Node.mk ⟨[(['a'], ⟨[1]⟩)]⟩ ⟨[(['b'], ⟨[2]⟩)]⟩ [])
    [(['a'], DiskEntry.file [1])] (ContentStore.mk [([1], [1])] [[1]]) (by rfl)

/-- C4: an inbound `Changes { blobs, diff }` that applies to disk without
an I/O failure is answered (not errored) with a `ChangesResponse` whose
accepted diff is exactly the entries of `diff` whose paths are not in the
conflict list returned by the disk application, and the conflicting paths
are appended to the peer-local conflict list. -/
theorem changes_response_accepted (n : Node) (new_content : List Bytes)
    (diff : FsStateDiff) (disk : Disk) (content_store : ContentStore)
    (st' : FsState) (disk' : Disk) (cs' : ContentStore) (confl : List FilePath)
    (happly : n.this_state.apply_diff_to_disk diff disk
        (ingestBlobs content_store new_content) = .ok (st', disk', cs', confl)) :
    n.handle_message_disk (.Changes new_content diff) disk content_store =
      .ok (some (.ChangesResponse
            ⟨diff.files.filter fun pc => !(confl.contains pc.1)⟩),
          { this_state := st', other_state := n.other_state,
            conflicts := n.conflicts ++ confl },
          disk', cs') := by
  rw [handle_message_disk_changes, happly]

/-- Witness for C4: a one-entry diff carrying its blob applies cleanly and
is accepted in full. -/
theorem changes_response_accepted_witness :
    (Node.mk ⟨[]⟩ ⟨[]⟩ []).handle_message_disk
        (.Changes [[1]] ⟨[(['a'], .Created ⟨[1]⟩)]⟩) [] ContentStore.empty =
      .ok (some (.ChangesResponse ⟨[(['a'], .Created ⟨[1]⟩)]⟩),
        Node.mk ⟨[(['a'], ⟨[1]⟩)]⟩ ⟨[]⟩ [],
        [(['a'], DiskEntry.file [1])], ContentStore.mk [([1], [1])] [[1]]) := by
  have h := changes_response_accepted (Node.mk ⟨[]⟩ ⟨[]⟩ []) [[1]]
    ⟨[(['a'], .Created ⟨[1]⟩)]⟩ [] ContentStore.empty
    ⟨[(['a'], ⟨[1]⟩)]⟩ [(['a'], DiskEntry.file [1])]
    (ContentStore.mk [([1], [1])] [[1]]) [] (by rfl)
  exact h.trans (by rfl)

/-! ## The content-store journal (C7) -/

/-- One mutation in an `add`/`insert` history of a `ContentStore`. -/
inductive StoreOp
  | add (content : Bytes)
  | insert (hash : ContentHash) (content : Bytes)
deriving DecidableEq, Repr

/-- Run a sequence of `add`/`insert` operations on a store. -/
def runStoreOps (cs : ContentStore) : List StoreOp → ContentStore
  | [] => cs
  | .add content :: rest => runStoreOps (cs.add content).2 rest
  | .insert h content :: rest => runStoreOps (cs.insert h content) rest

/-- The ContentId an operation inserts under. -/
def StoreOp.hash : StoreOp → ContentHash
  | .add content => blake3hash content
  | .insert h _ => h

/-- Modelled from the spec: "`drain_new()` returns exactly the ContentIds
first inserted since the previous drain", in insertion order.  `present`
says which ContentIds the store already holds; an operation whose id is
absent at its point in the sequence contributes that id once. -/
def firstInsertedIds (present : ContentHash → Bool) : List StoreOp → List ContentHash
  | [] => []
  | op :: rest =>
    if present op.hash then firstInsertedIds present rest
    else op.hash :: firstInsertedIds (fun x => if x = op.hash then true else present x) rest

theorem ContentStore.has_insert (cs : ContentStore) (h : ContentHash) (c : Bytes)
    (x : ContentHash) :
    (cs.insert h c).has x = if x = h then true else cs.has x := by
  simp only [ContentStore.has, ContentStore.insert, lookupA_setA]
  by_cases hx : x = h <;> simp [hx]

theorem ContentStore.new_contents_insert_of_has (cs : ContentStore) (h : ContentHash)
    (c : Bytes) (hp : cs.has h = true) :
    (cs.insert h c).new_contents = cs.new_contents := by
  simp only [ContentStore.insert, ContentStore.has] at hp ⊢
  simp [hp]

theorem ContentStore.new_contents_insert_of_not_has (cs : ContentStore) (h : ContentHash)
    (c : Bytes) (hp : cs.has h = false) :
    (cs.insert h c).new_contents = cs.new_contents ++ [h] := by
  simp only [ContentStore.insert, ContentStore.has] at hp ⊢
  simp [hp]

theorem firstInsertedIds_congr : ∀ (ops : List StoreOp) (p q : ContentHash → Bool),
    (∀ x, p x = q x) → firstInsertedIds p ops = firstInsertedIds q ops := by
  intro ops
  induction ops with
  | nil => intro p q hpq; rfl
  | cons op rest ih =>
    intro p q hpq
    simp only [firstInsertedIds, hpq op.hash]
    by_cases hq : q op.hash = true
    · simp only [hq, if_true]
      exact ih p q hpq
    · simp only [hq, if_false, Bool.false_eq_true]
      rw [ih (fun x => if x = op.hash then true else p x)
        (fun x => if x = op.hash then true else q x)
        (fun x => by by_cases hx : x = op.hash <;> simp [hx, hpq x])]

theorem runStoreOps_insert_journal (rest : List StoreOp)
    (ih : ∀ cs : ContentStore, (runStoreOps cs rest).new_contents =
      cs.new_contents ++ firstInsertedIds cs.has rest)
    (cs : ContentStore) (h : ContentHash) (c : Bytes) :
    (runStoreOps (cs.insert h c) rest).new_contents =
      cs.new_contents ++
        (if cs.has h then firstInsertedIds cs.has rest
         else h :: firstInsertedIds (fun x => if x = h then true else cs.has x) rest) := by
  rw [ih]
  by_cases hp : cs.has h = true
  · rw [ContentStore.new_contents_insert_of_has cs h c hp, if_pos hp]
    congr 1
    apply firstInsertedIds_congr
    intro x
    rw [ContentStore.has_insert]
    by_cases hx : x = h <;> simp [hx, hp]
  · have hp' : cs.has h = false := by simpa using hp
    rw [ContentStore.new_contents_insert_of_not_has cs h c hp', if_neg hp,
      List.append_assoc]
    congr 1
    rw [List.singleton_append]
    congr 1
    apply firstInsertedIds_congr
    intro x
    rw [ContentStore.has_insert]

/-- Running an `add`/`insert` history appends to the journal exactly the
ids first inserted along the way, in order. -/
theorem runStoreOps_journal : ∀ (ops : List StoreOp) (cs : ContentStore),
    (runStoreOps cs ops).new_contents =
      cs.new_contents ++ firstInsertedIds cs.has ops := by
  intro ops
  induction ops with
  | nil => intro cs; simp [runStoreOps, firstInsertedIds]
  | cons op rest ih =>
    intro cs
    cases op with
    | add content =>
      show (runStoreOps (cs.insert (blake3hash content) content) rest).new_contents = _
      rw [runStoreOps_insert_journal rest ih cs (blake3hash content) content]
      rfl
    | insert h content =>
      show (runStoreOps (cs.insert h content) rest).new_contents = _
      rw [runStoreOps_insert_journal rest ih cs h content]
      rfl

/-- C7: after any sequence of `add`/`insert` operations on a drained
store, `drain_new_contents` returns exactly the ContentIds that were first
inserted (absent at insertion time) since the previous drain, in insertion
order, and clears the journal; and inserting under an already-present
ContentId leaves the journal untouched. -/
theorem drain_returns_first_inserted (ops : List StoreOp) (cs : ContentStore)
    (hdrained : cs.new_contents = []) :
    (runStoreOps cs ops).drain_new_contents.1 = firstInsertedIds cs.has ops ∧
    ((runStoreOps cs ops).drain_new_contents.2).new_contents = [] ∧
    (∀ h c, cs.has h = true → (cs.insert h c).new_contents = cs.new_contents) := by
  refine ⟨?_, rfl, fun h c hp => ContentStore.new_contents_insert_of_has cs h c hp⟩
  show (runStoreOps cs ops).new_contents = _
  rw [runStoreOps_journal ops cs, hdrained]
  rfl

/-- Witness for C7: a history with a duplicated `add` and a duplicated id
journals each id exactly once, in order. -/
theorem drain_returns_first_inserted_witness :
    (runStoreOps ContentStore.empty
        [.add [1], .add [1], .insert [2] [5], .add [2]]).drain_new_contents.1 =
      firstInsertedIds ContentStore.empty.has
        [.add [1], .add [1], .insert [2] [5], .add [2]] ∧
    ((runStoreOps ContentStore.empty
        [.add [1], .add [1], .insert [2] [5], .add [2]]).drain_new_contents.2).new_contents = [] ∧
    (∀ h c, ContentStore.empty.has h = true →
      (ContentStore.empty.insert h c).new_contents = ContentStore.empty.new_contents) :=
  drain_returns_first_inserted [.add [1], .add [1], .insert [2] [5], .add [2]]
    ContentStore.empty rfl

/-! ## Error handling of the scanner (C9) -/

theorem fromDiskGo_error_of_unreadable (disk : Disk) (p : FilePath)
    (hp : lookupA disk p = some .unreadableFile) :
    ∀ (l : List (FilePath × DiskEntry)) (files : List (FilePath × FileMetadata))
      (cs : ContentStore), (p, DiskEntry.unreadableFile) ∈ l →
      ∃ e, fromDiskGo disk l files cs = .error e := by
  intro l
  induction l with
  | nil =>
    intro files cs h
    simp at h
  | cons pe rest ih =>
    intro files cs hmem
    obtain ⟨q, e⟩ := pe
    rcases List.mem_cons.mp hmem with h | h
    · obtain ⟨hq, he⟩ := Prod.mk.injEq .. ▸ h.symm
      subst hq
      subst he
      refine ⟨.ioError, ?_⟩
      simp [fromDiskGo, DiskEntry.isRegularFile, FileMetadata.from_fs, hp]
    · by_cases hreg : e.isRegularFile = true
      · cases hfs : FileMetadata.from_fs disk q cs with
        | error er => exact ⟨er, by simp [fromDiskGo, hreg, hfs]⟩
        | ok r =>
          obtain ⟨mm, cs'⟩ := r
          cases mm with
          | some m => simpa [fromDiskGo, hreg, hfs] using ih _ _ h
          | none => simpa [fromDiskGo, hreg, hfs] using ih _ _ h
      · simpa [fromDiskGo, hreg] using ih _ _ h

/-- C9: at a path that exists on disk but whose read fails with an I/O
error other than `NotFound`, `FsState::refresh_path` returns `Ok(None)` —
the error is discarded and the snapshot and store are left unchanged —
whereas a full `FsState::from_disk` scan of a tree holding such a path
propagates the failure as an error. -/
theorem unreadable_refresh_vs_scan (s : FsState) (disk : Disk) (p : FilePath)
    (cs : ContentStore) (hp : lookupA disk p = some .unreadableFile) :
    s.refresh_path disk p cs = (none, s, cs) ∧
    ∃ e, FsState.from_disk disk cs = .error e := by
  constructor
  · simp [FsState.refresh_path, FileMetadata.from_fs, hp, pathExists]
  · exact fromDiskGo_error_of_unreadable disk p hp disk [] cs (mem_of_lookupA hp)

/-- Witness for C9 at a one-entry tree. -/
theorem unreadable_refresh_vs_scan_witness :
    (FsState.mk [(['a'], ⟨[7]⟩)]).refresh_path [(['a'], .unreadableFile)] ['a']
        ContentStore.empty =
      (none, FsState.mk [(['a'], ⟨[7]⟩)], ContentStore.empty) ∧
    ∃ e, FsState.from_disk [(['a'], .unreadableFile)] ContentStore.empty = .error e :=
  unreadable_refresh_vs_scan (FsState.mk [(['a'], ⟨[7]⟩)])
    [(['a'], .unreadableFile)] ['a'] ContentStore.empty rfl

/-! ## Store side effects of disk application (C8) -/

theorem ContentStore.has_insert_self (cs : ContentStore) (h : ContentHash) (c : Bytes) :
    (cs.insert h c).has h = true := by
  rw [ContentStore.has_insert]
  simp

theorem ContentStore.has_insert_mono (cs : ContentStore) (h : ContentHash) (c : Bytes)
    {x : ContentHash} (hx : cs.has x = true) : (cs.insert h c).has x = true := by
  rw [ContentStore.has_insert]
  by_cases hxh : x = h <;> simp [hxh, hx]

theorem ContentStore.mem_new_contents_insert (cs : ContentStore) (h : ContentHash)
    (c : Bytes) {x : ContentHash} (hx : x ∈ cs.new_contents) :
    x ∈ (cs.insert h c).new_contents := by
  by_cases hp : cs.has h = true
  · rw [ContentStore.new_contents_insert_of_has cs h c hp]
    exact hx
  · rw [ContentStore.new_contents_insert_of_not_has cs h c (by simpa using hp)]
    exact List.mem_append_left _ hx

theorem ContentStore.self_mem_new_contents_insert (cs : ContentStore) (h : ContentHash)
    (c : Bytes) (hp : cs.has h = false) : h ∈ (cs.insert h c).new_contents := by
  rw [ContentStore.new_contents_insert_of_not_has cs h c hp]
  simp

/-- Along a successful `apply_diff_to_disk` run the store only grows: held
hashes stay held, journaled hashes stay journaled, and the current on-disk
bytes of every diffed path that exists as a readable file get hashed into
the store (journaled when the hash was absent at the step).  The diff's
keys must be distinct (the `BTreeMap` invariant). -/
theorem applyDiffToDiskGo_store : ∀ (l : List (FilePath × FileChange))
    (st : FsState) (disk : Disk) (cs : ContentStore) (acc : List FilePath)
    (stF : FsState) (diskF : Disk) (csF : ContentStore) (confF : List FilePath),
    (keysA l).Nodup →
    applyDiffToDiskGo l st disk cs acc = .ok (stF, diskF, csF, confF) →
    (∀ x, cs.has x = true → csF.has x = true) ∧
    (∀ x, x ∈ cs.new_contents → x ∈ csF.new_contents) ∧
    (∀ pc ∈ l, ∀ b, lookupA disk pc.1 = some (.file b) →
      csF.has (blake3hash b) = true ∧
      (cs.has (blake3hash b) = false → blake3hash b ∈ csF.new_contents)) := by
  intro l
  induction l with
  | nil =>
    intro st disk cs acc stF diskF csF confF _ h
    simp only [applyDiffToDiskGo, Except.ok.injEq, Prod.mk.injEq] at h
    obtain ⟨-, -, hcs, -⟩ := h
    subst hcs
    exact ⟨fun x hx => hx, fun x hx => hx, by simp⟩
  | cons pc rest ih =>
    intro st disk cs acc stF diskF csF confF hnd h
    obtain ⟨p, c⟩ := pc
    simp only [keysA, List.map_cons, List.nodup_cons] at hnd
    have hlookup_rest : ∀ x ∈ rest, x.1 ≠ p := by
      intro x hx hfst
      exact hnd.1 (hfst ▸ List.mem_map_of_mem Prod.fst hx)
    cases hdp : lookupA disk p with
    | none =>
      -- the path holds no file: the head entry contributes nothing to the
      -- store, and the head obligation is vacuous
      have htail : ∀ (st₁ : FsState) (disk₁ : Disk) (acc₁ : List FilePath),
          (∀ x ∈ rest, lookupA disk₁ x.1 = lookupA disk x.1) →
          applyDiffToDiskGo rest st₁ disk₁ cs acc₁ = .ok (stF, diskF, csF, confF) →
          (∀ x, cs.has x = true → csF.has x = true) ∧
          (∀ x, x ∈ cs.new_contents → x ∈ csF.new_contents) ∧
          (∀ pc ∈ (p, c) :: rest, ∀ b, lookupA disk pc.1 = some (.file b) →
            csF.has (blake3hash b) = true ∧
            (cs.has (blake3hash b) = false → blake3hash b ∈ csF.new_contents)) := by
        intro st₁ disk₁ acc₁ hdisk₁ h₁
        obtain ⟨h1, h2, h3⟩ := ih st₁ disk₁ cs acc₁ stF diskF csF confF hnd.2 h₁
        refine ⟨h1, h2, ?_⟩
        intro x hx b hb
        rcases List.mem_cons.mp hx with hx | hx
        · subst hx
          rw [hdp] at hb
          exact Option.noConfusion hb
        · exact h3 x hx b (by rw [hdisk₁ x hx]; exact hb)
      cases c with
      | Removed old =>
        simp only [applyDiffToDiskGo, FileMetadata.from_fs, hdp] at h
        rw [if_neg (by simp [FileChange.conflicts])] at h
        exact htail _ _ acc (fun x hx => lookupA_eraseA_ne disk (hlookup_rest x hx)) h
      | Created meta =>
        simp only [applyDiffToDiskGo, FileMetadata.from_fs, hdp] at h
        rw [if_neg (by simp [FileChange.conflicts])] at h
        cases hget : cs.get meta.content_hash with
        | error e =>
          simp only [hget] at h
          exact Except.noConfusion h
        | ok content =>
          simp only [hget] at h
          exact htail _ _ acc
            (fun x hx => lookupA_insertA_ne disk _ (hlookup_rest x hx)) h
      | Modified old meta =>
        simp only [applyDiffToDiskGo, FileMetadata.from_fs, hdp] at h
        rw [if_pos (by simp [FileChange.conflicts])] at h
        exact htail st disk (acc ++ [p]) (fun x hx => rfl) h
    | some de =>
      cases de with
      | unreadableFile =>
        simp only [applyDiffToDiskGo, FileMetadata.from_fs, hdp] at h
        exact Except.noConfusion h
      | nonFile =>
        simp only [applyDiffToDiskGo, FileMetadata.from_fs, hdp] at h
        exact Except.noConfusion h
      | file bp =>
        -- the path holds bytes `bp`: the conflict check hashes them into
        -- the store before anything else
        have hcompose : ∀ (st₁ : FsState) (disk₁ : Disk) (acc₁ : List FilePath),
            (∀ x ∈ rest, lookupA disk₁ x.1 = lookupA disk x.1) →
            applyDiffToDiskGo rest st₁ disk₁ (cs.insert (blake3hash bp) bp) acc₁ =
              .ok (stF, diskF, csF, confF) →
            (∀ x, cs.has x = true → csF.has x = true) ∧
            (∀ x, x ∈ cs.new_contents → x ∈ csF.new_contents) ∧
            (∀ pc ∈ (p, c) :: rest, ∀ b, lookupA disk pc.1 = some (.file b) →
              csF.has (blake3hash b) = true ∧
              (cs.has (blake3hash b) = false → blake3hash b ∈ csF.new_contents)) := by
          intro st₁ disk₁ acc₁ hdisk₁ h₁
          obtain ⟨h1, h2, h3⟩ :=
            ih st₁ disk₁ (cs.insert (blake3hash bp) bp) acc₁ stF diskF csF confF hnd.2 h₁
          refine ⟨fun x hx => h1 x (ContentStore.has_insert_mono cs _ bp hx),
            fun x hx => h2 x (ContentStore.mem_new_contents_insert cs _ bp hx), ?_⟩
          intro x hx b hb
          rcases List.mem_cons.mp hx with hx | hx
          · subst hx
            rw [hdp] at hb
            have hbbp : b = bp := by
              have h5 := Option.some.injEq .. ▸ hb
              exact DiskEntry.file.injEq .. ▸ h5.symm
            subst hbbp
            refine ⟨h1 _ (ContentStore.has_insert_self cs (blake3hash b) b), ?_⟩
            intro habs
            exact h2 _ (ContentStore.self_mem_new_contents_insert cs _ b habs)
          · have hb₁ : lookupA disk₁ x.1 = some (.file b) := by rw [hdisk₁ x hx]; exact hb
            obtain ⟨hh1, hh2⟩ := h3 x hx b hb₁
            refine ⟨hh1, ?_⟩
            intro habs
            by_cases hsame : blake3hash b = blake3hash bp
            · rw [hsame]
              exact h2 _ (ContentStore.self_mem_new_contents_insert cs _ bp (hsame ▸ habs))
            · apply hh2
              rw [ContentStore.has_insert]
              simp [hsame, habs]
        cases c with
        | Removed old =>
          simp only [applyDiffToDiskGo, FileMetadata.from_fs, hdp, ContentStore.add] at h
          by_cases hconf :
              (FileChange.Removed old).conflicts (some ⟨blake3hash bp⟩) = true
          · rw [if_pos hconf] at h
            exact hcompose st disk (acc ++ [p]) (fun x hx => rfl) h
          · rw [if_neg hconf] at h
            exact hcompose _ _ acc
              (fun x hx => lookupA_eraseA_ne disk (hlookup_rest x hx)) h
        | Created meta =>
          simp only [applyDiffToDiskGo, FileMetadata.from_fs, hdp, ContentStore.add] at h
          by_cases hconf :
              (FileChange.Created meta).conflicts (some ⟨blake3hash bp⟩) = true
          · rw [if_pos hconf] at h
            exact hcompose st disk (acc ++ [p]) (fun x hx => rfl) h
          · rw [if_neg hconf] at h
            cases hget : (cs.insert (blake3hash bp) bp).get meta.content_hash with
            | error e =>
              simp only [hget] at h
              exact Except.noConfusion h
            | ok content =>
              simp only [hget] at h
              exact hcompose _ _ acc
                (fun x hx => lookupA_insertA_ne disk _ (hlookup_rest x hx)) h
        | Modified old meta =>
          simp only [applyDiffToDiskGo, FileMetadata.from_fs, hdp, ContentStore.add] at h
          by_cases hconf :
              (FileChange.Modified old meta).conflicts (some ⟨blake3hash bp⟩) = true
          · rw [if_pos hconf] at h
            exact hcompose st disk (acc ++ [p]) (fun x hx => rfl) h
          · rw [if_neg hconf] at h
            cases hget : (cs.insert (blake3hash bp) bp).get meta.content_hash with
            | error e =>
              simp only [hget] at h
              exact Except.noConfusion h
            | ok content =>
              simp only [hget] at h
              exact hcompose _ _ acc
                (fun x hx => lookupA_insertA_ne disk _ (hlookup_rest x hx)) h

/-- C8: a successful `FsState::apply_diff_to_disk` reads and hashes the
file currently on disk at every diffed path through the `ContentStore`:
the current disk bytes of every diffed path that exists as a readable file
end up inserted into the store — journaled if their hash was new —
including for paths that are then reported as conflicts and otherwise left
untouched. -/
theorem apply_to_disk_hashes_current_bytes (s : FsState) (d : FsStateDiff)
    (disk : Disk) (cs : ContentStore) (st' : FsState) (disk' : Disk)
    (cs' : ContentStore) (confl : List FilePath)
    (hnd : (keysA d.files).Nodup)
    (h : s.apply_diff_to_disk d disk cs = .ok (st', disk', cs', confl)) :
    ∀ pc ∈ d.files, ∀ b, lookupA disk pc.1 = some (.file b) →
      cs'.has (blake3hash b) = true ∧
      (cs.has (blake3hash b) = false → blake3hash b ∈ cs'.new_contents) :=
  (applyDiffToDiskGo_store d.files s disk cs [] st' disk' cs' confl hnd h).2.2

/-- Witness for C8: a diff entry that conflicts with the disk (and is left
untouched) still causes the current disk bytes `[5]` to be hashed into the
store and journaled. -/
theorem apply_to_disk_hashes_current_bytes_witness :
    (ContentStore.mk [([5], [5])] [[5]]).has (blake3hash [5]) = true ∧
    blake3hash [5] ∈ (ContentStore.mk [([5], [5])] [[5]]).new_contents := by
  have h := apply_to_disk_hashes_current_bytes ⟨[]⟩
    ⟨[(['a'], .Modified ⟨[9]⟩ ⟨[8]⟩)]⟩ [(['a'], .file [5])] ContentStore.empty
    ⟨[]⟩ [(['a'], .file [5])] (ContentStore.mk [([5], [5])] [[5]]) [['a']]
    (by decide) (by rfl) (['a'], .Modified ⟨[9]⟩ ⟨[8]⟩) (by decide) [5] (by rfl)
  exact ⟨h.1, h.2 (by rfl)⟩

/-! ## Journal backing and the `get(..).unwrap()` calls (C10) -/

/-- One event of a `ContentStore`'s lifetime, including removals and
drains. -/
inductive StoreEvent
  | add (content : Bytes)
  | insert (hash : ContentHash) (content : Bytes)
  | remove (hash : ContentHash)
  | drain
deriving DecidableEq, Repr

/-- Run a store history. -/
def runStoreEvents (cs : ContentStore) : List StoreEvent → ContentStore
  | [] => cs
  | .add content :: rest => runStoreEvents (cs.add content).2 rest
  | .insert h content :: rest => runStoreEvents (cs.insert h content) rest
  | .remove h :: rest => runStoreEvents (cs.remove h) rest
  | .drain :: rest => runStoreEvents cs.drain_new_contents.2 rest

/-- Whether an event is a `remove`. -/
def StoreEvent.isRemove : StoreEvent → Bool
  | .remove _ => true
  | _ => false

/-- Every journaled ContentId is still present in the store. -/
def journalBacked (cs : ContentStore) : Prop :=
  ∀ h ∈ cs.new_contents, cs.has h = true

theorem journalBacked_insert {cs : ContentStore} (hjb : journalBacked cs)
    (h0 : ContentHash) (c : Bytes) : journalBacked (cs.insert h0 c) := by
  intro h hmem
  by_cases hp : cs.has h0 = true
  · rw [ContentStore.new_contents_insert_of_has cs h0 c hp] at hmem
    exact ContentStore.has_insert_mono cs h0 c (hjb h hmem)
  · rw [ContentStore.new_contents_insert_of_not_has cs h0 c (by simpa using hp)] at hmem
    rcases List.mem_append.mp hmem with hm | hm
    · exact ContentStore.has_insert_mono cs h0 c (hjb h hm)
    · simp only [List.mem_singleton] at hm
      subst hm
      exact ContentStore.has_insert_self cs h c

theorem journalBacked_runStoreEvents : ∀ (events : List StoreEvent) (cs : ContentStore),
    events.all (fun e => !e.isRemove) = true → journalBacked cs →
    journalBacked (runStoreEvents cs events) := by
  intro events
  induction events with
  | nil => intro cs _ hjb; exact hjb
  | cons e rest ih =>
    intro cs hall hjb
    simp only [List.all_cons, Bool.and_eq_true] at hall
    cases e with
    | add content => exact ih _ hall.2 (journalBacked_insert hjb _ _)
    | insert h content => exact ih _ hall.2 (journalBacked_insert hjb _ _)
    | remove h => simp [StoreEvent.isRemove] at hall
    | drain =>
      refine ih _ hall.2 ?_
      intro h hm
      simp [ContentStore.drain_new_contents] at hm

theorem collectNewContent_ok (cs : ContentStore) :
    ∀ hs : List ContentHash, (∀ h ∈ hs, cs.has h = true) →
    ∃ bs, collectNewContent cs hs = .ok bs := by
  intro hs
  induction hs with
  | nil => intro _; exact ⟨[], rfl⟩
  | cons h rest ih =>
    intro hall
    have hh := hall h (List.mem_cons_self h rest)
    obtain ⟨c, hc⟩ : ∃ c, cs.get h = .ok c := by
      unfold ContentStore.has at hh
      unfold ContentStore.get
      cases hl : lookupA cs.contents h with
      | some c => exact ⟨c, rfl⟩
      | none => rw [hl] at hh; simp at hh
    obtain ⟨bs, hbs⟩ := ih (fun x hx => hall x (List.mem_cons_of_mem h hx))
    exact ⟨c :: bs, by simp [collectNewContent, hc, hbs]⟩

/-- `Node::messages_for_other` never hits the `.unwrap()` panic when the
journal is backed by the store. -/
theorem messages_for_other_ok (n : Node) (cs : ContentStore)
    (hjb : journalBacked cs) : ∃ r, n.messages_for_other cs = .ok r := by
  obtain ⟨bs, hbs⟩ := collectNewContent_ok cs.drain_new_contents.2
    cs.drain_new_contents.1 (fun h hm => hjb h hm)
  refine ⟨(.Changes bs n.changes_for_other, cs.drain_new_contents.2), ?_⟩
  simp [Node.messages_for_other, hbs]

theorem journalBacked_refresh_path (s : FsState) (disk : Disk) (p : FilePath)
    {cs : ContentStore} (hjb : journalBacked cs) :
    journalBacked (s.refresh_path disk p cs).2.2 := by
  cases hl : lookupA disk p with
  | none =>
    simp only [FsState.refresh_path, FileMetadata.from_fs, hl, pathExists]
    cases hsp : lookupA s.files p <;> simp [hsp, hjb]
  | some de =>
    cases de with
    | file b =>
      simp only [FsState.refresh_path, FileMetadata.from_fs, hl, ContentStore.add]
      cases hsp : lookupA s.files p with
      | some old =>
        by_cases hne : old.content_hash ≠ blake3hash b <;>
          simp [hsp, hne, journalBacked_insert hjb]
      | none => simp [hsp, journalBacked_insert hjb]
    | unreadableFile =>
      simp only [FsState.refresh_path, FileMetadata.from_fs, hl, pathExists]
      simpa using hjb
    | nonFile =>
      simp only [FsState.refresh_path, FileMetadata.from_fs, hl, pathExists]
      simpa using hjb

theorem journalBacked_refreshPathsGo : ∀ (paths : List FilePath) (disk : Disk)
    (s : FsState) (acc : List (FilePath × FileChange)) (cs : ContentStore),
    journalBacked cs → journalBacked (refreshPathsGo disk paths s acc cs).2.2 := by
  intro paths
  induction paths with
  | nil => intro disk s acc cs hjb; exact hjb
  | cons p rest ih =>
    intro disk s acc cs hjb
    have hjb' := journalBacked_refresh_path s disk p hjb
    cases hr : s.refresh_path disk p cs with
    | mk o r2 =>
      obtain ⟨s', cs'⟩ := r2
      rw [hr] at hjb'
      cases o with
      | none =>
        simp only [refreshPathsGo, hr]
        exact ih disk s' acc cs' hjb'
      | some fc =>
        obtain ⟨fp, change⟩ := fc
        simp only [refreshPathsGo, hr]
        exact ih disk s' _ cs' hjb'

/-- `Node::refresh_paths` never hits the `.unwrap()` panic when the
journal is backed by the store. -/
theorem node_refresh_paths_ok (n : Node) (disk : Disk) (paths : List FilePath)
    (cs : ContentStore) (hjb : journalBacked cs) :
    ∃ r, n.refresh_paths disk paths cs = .ok r := by
  have hjb' : journalBacked (n.this_state.refresh_paths disk paths cs).2.2 :=
    journalBacked_refreshPathsGo paths disk n.this_state [] cs hjb
  unfold Node.refresh_paths
  by_cases hemp : (n.this_state.refresh_paths disk paths cs).1.is_empty = true
  · rw [if_pos hemp]
    exact ⟨_, rfl⟩
  · rw [if_neg hemp]
    obtain ⟨bs, hbs⟩ := collectNewContent_ok
      (n.this_state.refresh_paths disk paths cs).2.2.drain_new_contents.2
      (n.this_state.refresh_paths disk paths cs).2.2.drain_new_contents.1
      (fun h hm => hjb' h hm)
    rw [hbs]
    exact ⟨_, rfl⟩

/-- C10: starting from the empty store, a history in which `remove` is
never called keeps every journaled ContentId present, so the
`get(..).unwrap()` calls in `Node::messages_for_other` and
`Node::refresh_paths` cannot panic; with a `remove` in the history the
panic is reachable (third conjunct: an `add` followed by `remove` leaves
the journal entry dangling and `messages_for_other` hits it). -/
theorem no_remove_no_unwrap_panic (events : List StoreEvent)
    (hnr : events.all (fun e => !e.isRemove) = true)
    (n : Node) (disk : Disk) (paths : List FilePath) :
    (∃ r, n.messages_for_other (runStoreEvents ContentStore.empty events) = .ok r) ∧
    (∃ r, n.refresh_paths disk paths (runStoreEvents ContentStore.empty events) = .ok r) ∧
    ((Node.mk ⟨[]⟩ ⟨[]⟩ []).messages_for_other
        ((ContentStore.empty.add [3]).2.remove (blake3hash [3])) =
      .error .panicMissing) := by
  have hjb : journalBacked (runStoreEvents ContentStore.empty events) :=
    journalBacked_runStoreEvents events ContentStore.empty hnr
      (by intro h hm; simp [ContentStore.empty] at hm)
  exact ⟨messages_for_other_ok n _ hjb, node_refresh_paths_ok n disk paths _ hjb, by rfl⟩

/-- Witness for C10 at a concrete remove-free history. -/
theorem no_remove_no_unwrap_panic_witness :
    (∃ r, (Node.mk ⟨[]⟩ ⟨[]⟩ []).messages_for_other
      (runStoreEvents ContentStore.empty [.add [1], .drain, .insert [2] [2]]) = .ok r) ∧
    (∃ r, (Node.mk ⟨[]⟩ ⟨[]⟩ []).refresh_paths [] []
      (runStoreEvents ContentStore.empty [.add [1], .drain, .insert [2] [2]]) = .ok r) ∧
    ((Node.mk ⟨[]⟩ ⟨[]⟩ []).messages_for_other
        ((ContentStore.empty.add [3]).2.remove (blake3hash [3])) =
      .error .panicMissing) :=
  no_remove_no_unwrap_panic [.add [1], .drain, .insert [2] [2]] (by decide)
    (Node.mk ⟨[]⟩ ⟨[]⟩ []) [] []

/-! ## The in-memory exchange round (C5, C6) -/

/-- One full steady-state round of the in-memory protocol, as exercised by
the source's tests: both peers compute their `Changes` diff against their
peer view, each applies the other's diff, then each processes the other's
acknowledgement (the accepted subset).  Returns the two finished nodes and
the two accepted diffs. -/
def syncRoundMem (a b : Node) : Node × Node × FsStateDiff × FsStateDiff :=
  ((a.apply_changes_from_other_mem b.changes_for_other).2.changes_acked_by_other
      (b.apply_changes_from_other_mem a.changes_for_other).1,
   (b.apply_changes_from_other_mem a.changes_for_other).2.changes_acked_by_other
      (a.apply_changes_from_other_mem b.changes_for_other).1,
   (b.apply_changes_from_other_mem a.changes_for_other).1,
   (a.apply_changes_from_other_mem b.changes_for_other).1)

/-- Core of the disjoint-edit convergence: with edits on disjoint path
sets, peer A's final snapshot (its own edits plus B's applied diff) equals
its final peer view (the base with B's diff applied, then A's accepted
diff applied on acknowledgement). -/
theorem disjoint_apply_settles (s sA sB : FsState)
    (hs : SortedA s.files) (hsA : SortedA sA.files) (hsB : SortedA sB.files)
    (hone : ∀ q, lookupA (s.diff sA).files q = none ∨
      lookupA (s.diff sB).files q = none) :
    (sA.apply_diff (s.diff sB)).1 =
      ((s.apply_diff (s.diff sB)).1.apply_diff (s.diff sA)).1 := by
  have hndA := sortedA_keys_nodup (FsState.diff_sorted s sA)
  have hndB := sortedA_keys_nodup (FsState.diff_sorted s sB)
  have hu := FsState.apply_diff_sorted s (s.diff sB) hs
  apply FsState.files_ext
  apply sortedA_lookup_ext (FsState.apply_diff_sorted sA _ hsA)
    (FsState.apply_diff_sorted _ _ hu)
  intro q
  rw [FsState.apply_diff_lookup sA _ hsA hndB q,
    FsState.apply_diff_lookup _ _ hu hndA q,
    FsState.apply_diff_lookup s _ hs hndB q]
  cases hB : lookupA (s.diff sB).files q with
  | some cB =>
    have hA : lookupA (s.diff sA).files q = none := by
      rcases hone q with h | h
      · exact h
      · rw [hB] at h; exact Option.noConfusion h
    have hsAq : lookupA sA.files q = lookupA s.files q :=
      ((FsState.diff_lookup_none_iff s sA hs hsA q).mp hA).symm
    have hnoA : cB.conflicts (lookupA sA.files q) = false :=
      diff_entry_no_conflict hs hsB hB hsAq
    have hnoS : cB.conflicts (lookupA s.files q) = false :=
      diff_entry_no_conflict hs hsB hB rfl
    rw [hA]
    simp [hnoA, hnoS]
  | none =>
    cases hA : lookupA (s.diff sA).files q with
    | some cA =>
      have hnoS : cA.conflicts (lookupA s.files q) = false :=
        diff_entry_no_conflict hs hsA hA rfl
      have hval := diff_entry_apply_val hs hsA hA
      simp [hnoS, hval]
    | none =>
      have h1 : lookupA s.files q = lookupA sA.files q :=
        (FsState.diff_lookup_none_iff s sA hs hsA q).mp hA
      simp [h1]

/-- C5: from a common starting snapshot, two peers that make edits to
disjoint path sets — the changed paths of the two diffs are disjoint —
both settle (`this_state = other_state`) with empty conflict lists after
one full `Changes`/`ChangesResponse` round each. -/
theorem disjoint_edits_converge (s sA sB : FsState)
    (hs : SortedA s.files) (hsA : SortedA sA.files) (hsB : SortedA sB.files)
    (hdisj : ∀ p ∈ keysA (s.diff sA).files, p ∉ keysA (s.diff sB).files) :
    (syncRoundMem (Node.new sA s) (Node.new sB s)).1.is_settle = true ∧
    (syncRoundMem (Node.new sA s) (Node.new sB s)).2.1.is_settle = true ∧
    (syncRoundMem (Node.new sA s) (Node.new sB s)).1.conflicts = [] ∧
    (syncRoundMem (Node.new sA s) (Node.new sB s)).2.1.conflicts = [] := by
  have hndA := sortedA_keys_nodup (FsState.diff_sorted s sA)
  have hndB := sortedA_keys_nodup (FsState.diff_sorted s sB)
  have hone : ∀ q, lookupA (s.diff sA).files q = none ∨
      lookupA (s.diff sB).files q = none := by
    intro q
    cases hA : lookupA (s.diff sA).files q with
    | none => exact Or.inl rfl
    | some c =>
      refine Or.inr (lookupA_eq_none.mpr ?_)
      intro hqB
      exact hdisj q (mem_keysA_of_lookupA hA) hqB
  have hone' : ∀ q, lookupA (s.diff sB).files q = none ∨
      lookupA (s.diff sA).files q = none := fun q => (hone q).symm
  have hcA : (sA.apply_diff (s.diff sB)).2 = [] := by
    rw [FsState.apply_diff_conflicts sA (s.diff sB) hsA hndB]
    refine diff_conflictKeys_nil hs hsB ?_
    intro p c hpc
    have hA : lookupA (s.diff sA).files p = none := by
      rcases hone p with h | h
      · exact h
      · rw [hpc] at h; exact Option.noConfusion h
    exact ((FsState.diff_lookup_none_iff s sA hs hsA p).mp hA).symm
  have hcB : (sB.apply_diff (s.diff sA)).2 = [] := by
    rw [FsState.apply_diff_conflicts sB (s.diff sA) hsB hndA]
    refine diff_conflictKeys_nil hs hsA ?_
    intro p c hpc
    have hB : lookupA (s.diff sB).files p = none := by
      rcases hone' p with h | h
      · exact h
      · rw [hpc] at h; exact Option.noConfusion h
    exact ((FsState.diff_lookup_none_iff s sB hs hsB p).mp hB).symm
  have hchA : (Node.new sA s).changes_for_other = s.diff sA := rfl
  have hchB : (Node.new sB s).changes_for_other = s.diff sB := rfl
  have haccB : ((Node.new sA s).apply_changes_from_other_mem (s.diff sB)).1 = s.diff sB := by
    show FsStateDiff.mk _ = s.diff sB
    rw [show (Node.new sA s).this_state = sA from rfl, hcA]
    simp
  have haccA : ((Node.new sB s).apply_changes_from_other_mem (s.diff sA)).1 = s.diff sA := by
    show FsStateDiff.mk _ = s.diff sA
    rw [show (Node.new sB s).this_state = sB from rfl, hcB]
    simp
  have hnodeA : ((Node.new sA s).apply_changes_from_other_mem (s.diff sB)).2 =
      ⟨(sA.apply_diff (s.diff sB)).1, (s.apply_diff (s.diff sB)).1, []⟩ := by
    show Node.mk _ _ _ = _
    rw [show (Node.new sA s).this_state = sA from rfl,
      show (Node.new sA s).other_state = s from rfl,
      show (Node.new sA s).conflicts = ([] : List FilePath) from rfl, hcA]
    rfl
  have hnodeB : ((Node.new sB s).apply_changes_from_other_mem (s.diff sA)).2 =
      ⟨(sB.apply_diff (s.diff sA)).1, (s.apply_diff (s.diff sA)).1, []⟩ := by
    show Node.mk _ _ _ = _
    rw [show (Node.new sB s).this_state = sB from rfl,
      show (Node.new sB s).other_state = s from rfl,
      show (Node.new sB s).conflicts = ([] : List FilePath) from rfl, hcB]
    rfl
  simp only [syncRoundMem, hchA, hchB, haccA, haccB, hnodeA, hnodeB,
    Node.changes_acked_by_other]
  refine ⟨?_, ?_, by trivial, by trivial⟩
  · simp [Node.is_settle, disjoint_apply_settles s sA sB hs hsA hsB hone]
  · simp [Node.is_settle, disjoint_apply_settles s sB sA hs hsB hsA hone']

/-- Witness for C5: peer A removes `a`, peer B creates `c`, from common
base `{a, b}`; both settle with no conflicts. -/
theorem disjoint_edits_converge_witness :
    (syncRoundMem (Node.new ⟨[(['b'], ⟨[2]⟩)]⟩ ⟨[(['a'], ⟨[1]⟩), (['b'], ⟨[2]⟩)]⟩)
        (Node.new ⟨[(['a'], ⟨[1]⟩), (['b'], ⟨[2]⟩), (['c'], ⟨[3]⟩)]⟩
          ⟨[(['a'], ⟨[1]⟩), (['b'], ⟨[2]⟩)]⟩)).1.is_settle = true ∧
    (syncRoundMem (Node.new ⟨[(['b'], ⟨[2]⟩)]⟩ ⟨[(['a'], ⟨[1]⟩), (['b'], ⟨[2]⟩)]⟩)
        (Node.new ⟨[(['a'], ⟨[1]⟩), (['b'], ⟨[2]⟩), (['c'], ⟨[3]⟩)]⟩
          ⟨[(['a'], ⟨[1]⟩), (['b'], ⟨[2]⟩)]⟩)).2.1.is_settle = true ∧
    (syncRoundMem (Node.new ⟨[(['b'], ⟨[2]⟩)]⟩ ⟨[(['a'], ⟨[1]⟩), (['b'], ⟨[2]⟩)]⟩)
        (Node.new ⟨[(['a'], ⟨[1]⟩), (['b'], ⟨[2]⟩), (['c'], ⟨[3]⟩)]⟩
          ⟨[(['a'], ⟨[1]⟩), (['b'], ⟨[2]⟩)]⟩)).1.conflicts = [] ∧
    (syncRoundMem (Node.new ⟨[(['b'], ⟨[2]⟩)]⟩ ⟨[(['a'], ⟨[1]⟩), (['b'], ⟨[2]⟩)]⟩)
        (Node.new ⟨[(['a'], ⟨[1]⟩), (['b'], ⟨[2]⟩), (['c'], ⟨[3]⟩)]⟩
          ⟨[(['a'], ⟨[1]⟩), (['b'], ⟨[2]⟩)]⟩)).2.1.conflicts = [] :=
  disjoint_edits_converge ⟨[(['a'], ⟨[1]⟩), (['b'], ⟨[2]⟩)]⟩ ⟨[(['b'], ⟨[2]⟩)]⟩
    ⟨[(['a'], ⟨[1]⟩), (['b'], ⟨[2]⟩), (['c'], ⟨[3]⟩)]⟩
    (by decide) (by decide) (by decide) (by decide)

theorem FileMetadata.hash_ne {a b : FileMetadata} (h : a ≠ b) :
    a.content_hash ≠ b.content_hash := by
  intro hh
  apply h
  cases a; cases b; cases hh; rfl

/-- A write of `m2` to path `p` on top of base `s` (with `m2` genuinely
new there) produces a singleton diff at `p` whose change conflicts with
any other new metadata `m1` at `p` but not with the base. -/
theorem single_write_diff (s : FsState) (p : FilePath) (m1 m2 : FileMetadata)
    (hs : SortedA s.files)
    (h1 : lookupA s.files p ≠ some m1) (h2 : lookupA s.files p ≠ some m2)
    (h12 : m1 ≠ m2) :
    ∃ cB, (s.diff ⟨insertA s.files p m2⟩).files = [(p, cB)] ∧
      cB.conflicts (some m1) = true ∧
      cB.conflicts (lookupA s.files p) = false ∧
      applyChangeVal cB = some m2 := by
  have hsB : SortedA (insertA s.files p m2) := sortedA_insertA hs p m2
  have hself : lookupA (insertA s.files p m2) p = some m2 := lookupA_insertA_self _ _ _
  have hnone : ∀ q, q ≠ p → lookupA (s.diff ⟨insertA s.files p m2⟩).files q = none := by
    intro q hq
    apply (FsState.diff_lookup_none_iff s _ hs hsB q).mpr
    exact (lookupA_insertA_ne s.files m2 hq).symm
  cases hsp : lookupA s.files p with
  | some m0 =>
    have hne02 : m0.content_hash ≠ m2.content_hash :=
      FileMetadata.hash_ne (fun he => h2 (he ▸ hsp))
    refine ⟨.Modified m0 m2, ?_, ?_, ?_, rfl⟩
    · apply sortedA_lookup_ext (FsState.diff_sorted s _) (by simp [SortedA])
      intro q
      by_cases hq : q = p
      · subst hq
        rw [FsState.diff_lookup s _ hs hsB q, hsp, hself]
        simp [lookupA, hne02]
      · rw [hnone q hq]
        simp [lookupA, hq]
    · have hne10 : m1.content_hash ≠ m0.content_hash :=
        FileMetadata.hash_ne (fun he => h1 (by rw [hsp, he]))
      have hne12 : m1.content_hash ≠ m2.content_hash := FileMetadata.hash_ne h12
      simp [FileChange.conflicts, hne10, hne12]
    · simp [FileChange.conflicts]
  | none =>
    refine ⟨.Created m2, ?_, ?_, ?_, rfl⟩
    · apply sortedA_lookup_ext (FsState.diff_sorted s _) (by simp [SortedA])
      intro q
      by_cases hq : q = p
      · subst hq
        rw [FsState.diff_lookup s _ hs hsB q, hsp, hself]
        simp [lookupA]
      · rw [hnone q hq]
        simp [lookupA, hq]
    · have hne12 : m1.content_hash ≠ m2.content_hash := FileMetadata.hash_ne h12
      simp [FileChange.conflicts, hne12]
    · simp [FileChange.conflicts]

/-- The four component values of one side of the conflicting exchange:
applying the other's singleton diff conflicts on the own snapshot (leaving
it untouched, recording `p`), cleanly rewrites the peer view to the
other's state, and the accepted subset filters down to nothing. -/
theorem conflict_components (s : FsState) (p : FilePath) (m1 m2 : FileMetadata)
    (hs : SortedA s.files)
    (h1 : lookupA s.files p ≠ some m1) (h2 : lookupA s.files p ≠ some m2)
    (h12 : m1 ≠ m2) :
    (⟨insertA s.files p m1⟩ : FsState).apply_diff (s.diff ⟨insertA s.files p m2⟩) =
      (⟨insertA s.files p m1⟩, [p]) ∧
    (s.apply_diff (s.diff ⟨insertA s.files p m2⟩)).1 = ⟨insertA s.files p m2⟩ ∧
    (s.apply_diff (s.diff ⟨insertA s.files p m2⟩)).2 = [] ∧
    (s.diff ⟨insertA s.files p m2⟩).files.filter
      (fun pc => !(([p] : List FilePath).contains pc.1)) = [] := by
  obtain ⟨cB, hdB, hc1, hc0, hval⟩ := single_write_diff s p m1 m2 hs h1 h2 h12
  have hnd := sortedA_keys_nodup (FsState.diff_sorted s (⟨insertA s.files p m2⟩ : FsState))
  refine ⟨?_, ?_, ?_, ?_⟩
  · show applyDiffGo (s.diff (⟨insertA s.files p m2⟩ : FsState)).files _ [] = _
    rw [hdB]
    simp [applyDiffGo, lookupA_insertA_self, hc1]
  · apply FsState.files_ext
    apply sortedA_lookup_ext (FsState.apply_diff_sorted s _ hs) (sortedA_insertA hs p m2)
    intro q
    rw [FsState.apply_diff_lookup s _ hs hnd q, hdB]
    by_cases hq : q = p
    · subst hq
      simp only [lookupA, if_pos rfl]
      rw [lookupA_insertA_self]
      simp [hc0, hval]
    · simp only [lookupA, if_neg hq]
      rw [lookupA_insertA_ne s.files m2 hq]
  · rw [FsState.apply_diff_conflicts s _ hs hnd, hdB]
    simp [conflictKeys, hc0]
  · rw [hdB]
    simp

/-- C6: from a common snapshot, two peers that concurrently write two
different contents to the same path `p` end — after the full exchange —
with `p` in both conflict lists, both accepted diffs excluding `p`, and
`is_settle` false on both. -/
theorem different_content_divergence (s : FsState) (p : FilePath)
    (m1 m2 : FileMetadata) (hs : SortedA s.files)
    (h1 : lookupA s.files p ≠ some m1) (h2 : lookupA s.files p ≠ some m2)
    (h12 : m1 ≠ m2) :
    p ∈ (syncRoundMem (Node.new ⟨insertA s.files p m1⟩ s)
        (Node.new ⟨insertA s.files p m2⟩ s)).1.conflicts ∧
    p ∈ (syncRoundMem (Node.new ⟨insertA s.files p m1⟩ s)
        (Node.new ⟨insertA s.files p m2⟩ s)).2.1.conflicts ∧
    lookupA (syncRoundMem (Node.new ⟨insertA s.files p m1⟩ s)
        (Node.new ⟨insertA s.files p m2⟩ s)).2.2.1.files p = none ∧
    lookupA (syncRoundMem (Node.new ⟨insertA s.files p m1⟩ s)
        (Node.new ⟨insertA s.files p m2⟩ s)).2.2.2.files p = none ∧
    (syncRoundMem (Node.new ⟨insertA s.files p m1⟩ s)
        (Node.new ⟨insertA s.files p m2⟩ s)).1.is_settle = false ∧
    (syncRoundMem (Node.new ⟨insertA s.files p m1⟩ s)
        (Node.new ⟨insertA s.files p m2⟩ s)).2.1.is_settle = false := by
  obtain ⟨happA, happSB, hconfSB, hfilB⟩ := conflict_components s p m1 m2 hs h1 h2 h12
  obtain ⟨happB, happSA, hconfSA, hfilA⟩ := conflict_components s p m2 m1 hs h2 h1 h12.symm
  have hchA : (Node.new (⟨insertA s.files p m1⟩ : FsState) s).changes_for_other =
      s.diff ⟨insertA s.files p m1⟩ := rfl
  have hchB : (Node.new (⟨insertA s.files p m2⟩ : FsState) s).changes_for_other =
      s.diff ⟨insertA s.files p m2⟩ := rfl
  have haccB : ((Node.new (⟨insertA s.files p m1⟩ : FsState) s).apply_changes_from_other_mem
      (s.diff ⟨insertA s.files p m2⟩)).1 = ⟨[]⟩ := by
    show FsStateDiff.mk _ = _
    rw [show (Node.new (⟨insertA s.files p m1⟩ : FsState) s).this_state =
        ⟨insertA s.files p m1⟩ from rfl, happA]
    exact congrArg FsStateDiff.mk hfilB
  have haccA : ((Node.new (⟨insertA s.files p m2⟩ : FsState) s).apply_changes_from_other_mem
      (s.diff ⟨insertA s.files p m1⟩)).1 = ⟨[]⟩ := by
    show FsStateDiff.mk _ = _
    rw [show (Node.new (⟨insertA s.files p m2⟩ : FsState) s).this_state =
        ⟨insertA s.files p m2⟩ from rfl, happB]
    exact congrArg FsStateDiff.mk hfilA
  have hnodeA : ((Node.new (⟨insertA s.files p m1⟩ : FsState) s).apply_changes_from_other_mem
      (s.diff ⟨insertA s.files p m2⟩)).2 =
      Node.mk ⟨insertA s.files p m1⟩ ⟨insertA s.files p m2⟩ [p] := by
    show Node.mk _ _ _ = _
    rw [show (Node.new (⟨insertA s.files p m1⟩ : FsState) s).this_state =
        ⟨insertA s.files p m1⟩ from rfl,
      show (Node.new (⟨insertA s.files p m1⟩ : FsState) s).other_state = s from rfl,
      show (Node.new (⟨insertA s.files p m1⟩ : FsState) s).conflicts =
        ([] : List FilePath) from rfl,
      happA, happSB]
    rfl
  have hnodeB : ((Node.new (⟨insertA s.files p m2⟩ : FsState) s).apply_changes_from_other_mem
      (s.diff ⟨insertA s.files p m1⟩)).2 =
      Node.mk ⟨insertA s.files p m2⟩ ⟨insertA s.files p m1⟩ [p] := by
    show Node.mk _ _ _ = _
    rw [show (Node.new (⟨insertA s.files p m2⟩ : FsState) s).this_state =
        ⟨insertA s.files p m2⟩ from rfl,
      show (Node.new (⟨insertA s.files p m2⟩ : FsState) s).other_state = s from rfl,
      show (Node.new (⟨insertA s.files p m2⟩ : FsState) s).conflicts =
        ([] : List FilePath) from rfl,
      happB, happSA]
    rfl
  have hne : (⟨insertA s.files p m1⟩ : FsState) ≠ ⟨insertA s.files p m2⟩ := by
    intro he
    have hfe : insertA s.files p m1 = insertA s.files p m2 := congrArg FsState.files he
    have hsome : some m1 = some m2 := by
      rw [← lookupA_insertA_self s.files p m1, ← lookupA_insertA_self s.files p m2, hfe]
    exact h12 (Option.some.injEq .. ▸ hsome)
  simp only [syncRoundMem, hchA, hchB, haccA, haccB, hnodeA, hnodeB,
    Node.changes_acked_by_other]
  refine ⟨by simp, by simp, by simp [lookupA], by simp [lookupA], ?_, ?_⟩
  · simp only [Node.is_settle]
    apply decide_eq_false
    intro he
    exact hne he
  · simp only [Node.is_settle]
    apply decide_eq_false
    intro he
    exact hne (id (Eq.symm he))

/-- Concrete base snapshot for the C6 witness. -/
def s6w : FsState := ⟨[(['a'], ⟨[1]⟩)]⟩

/-- Concrete path for the C6 witness. -/
def p6w : FilePath := ['a']

/-- Witness for C6: both peers write different content to path `a` on top
of base `{a ↦ [1]}`. -/
theorem different_content_divergence_witness :
    p6w ∈ (syncRoundMem (Node.new ⟨insertA s6w.files p6w ⟨[2]⟩⟩ s6w)
        (Node.new ⟨insertA s6w.files p6w ⟨[3]⟩⟩ s6w)).1.conflicts ∧
    p6w ∈ (syncRoundMem (Node.new ⟨insertA s6w.files p6w ⟨[2]⟩⟩ s6w)
        (Node.new ⟨insertA s6w.files p6w ⟨[3]⟩⟩ s6w)).2.1.conflicts ∧
    lookupA (syncRoundMem (Node.new ⟨insertA s6w.files p6w ⟨[2]⟩⟩ s6w)
        (Node.new ⟨insertA s6w.files p6w ⟨[3]⟩⟩ s6w)).2.2.1.files p6w = none ∧
    lookupA (syncRoundMem (Node.new ⟨insertA s6w.files p6w ⟨[2]⟩⟩ s6w)
        (Node.new ⟨insertA s6w.files p6w ⟨[3]⟩⟩ s6w)).2.2.2.files p6w = none ∧
    (syncRoundMem (Node.new ⟨insertA s6w.files p6w ⟨[2]⟩⟩ s6w)
        (Node.new ⟨insertA s6w.files p6w ⟨[3]⟩⟩ s6w)).1.is_settle = false ∧
    (syncRoundMem (Node.new ⟨insertA s6w.files p6w ⟨[2]⟩⟩ s6w)
        (Node.new ⟨insertA s6w.files p6w ⟨[3]⟩⟩ s6w)).2.1.is_settle = false :=
  different_content_divergence s6w p6w ⟨[2]⟩ ⟨[3]⟩
    (by decide) (by decide) (by decide) (by decide)

end Fync
